import Mathlib

/-
Verification development for the FCND-Motion-Planning repository.

Shallow embedding of the planning core:
  * `planning_utils.py` : `create_grid`, `Action`, `is_valid_node`,
    `valid_actions`, `a_star`, `heuristic`
  * `motion_planning.py` : `prune_path`, the `MotionPlanning` drone state
    machine (`state_callback`, `local_position_callback`,
    `velocity_callback`, the `*_transition` methods, `plan_path`)
  * `geo_utils.py` : `local_pos_to_grid_pos`

Numeric conventions: Python floats are idealized as exact rationals (for
obstacle data and telemetry) and exact reals (for search costs, which are
sums a + b*sqrt 2 of action costs plus Euclidean heuristic values sqrt m;
these are represented exactly by integer triples with a proven-correct
comparison procedure).  Python exceptions are modelled by `Option`/sum
results: `none` (or a dedicated constructor) means the call raised.
-/

namespace FCND

/-- A grid coordinate, mirroring the Python `(north_index, east_index)`
integer tuples used as nodes throughout `planning_utils.py`. -/
abbrev Node : Type := ℤ × ℤ

/-- Python tuple comparison `(x, y) < (x', y')` (lexicographic), used by the
`PriorityQueue` to break ties between entries with equal float priority. -/
def nodeLT (a b : Node) : Bool :=
  decide (a.1 < b.1 ∨ (a.1 = b.1 ∧ a.2 < b.2))

/-- The occupancy grid produced by `create_grid`: a `north_size` by
`east_size` array of cells; `blocked i j = true` mirrors `grid[i, j] == 1`.
`blocked` is total on ℤ × ℤ; the program only consults it at indices the
bounds checks admit. -/
structure Grid where
  nrows : ℕ
  ncols : ℕ
  blocked : ℤ → ℤ → Bool

/-- The eight moves of `planning_utils.Action`. -/
inductive Action where
  | west | east | north | south
  | northwest | northeast | southwest | southeast
  deriving DecidableEq, Repr

/-- `Action.delta`: the first two components of each enum value. -/
def Action.delta : Action → ℤ × ℤ
  | .west => (0, -1)
  | .east => (0, 1)
  | .north => (-1, 0)
  | .south => (1, 0)
  | .northwest => (-1, -1)
  | .northeast => (-1, 1)
  | .southwest => (1, -1)
  | .southeast => (1, 1)

/-- Whether the move's cost is `2**0.5` (diagonal) rather than `1`
(cardinal), per the third component of each `Action` enum value. -/
def Action.isDiag : Action → Bool
  | .west | .east | .north | .south => false
  | _ => true

/-- `list(Action)`, in the enum's declaration order. -/
def actionList : List Action :=
  [.west, .east, .north, .south, .northwest, .northeast, .southwest, .southeast]

/-- The destination of a move: `(x + da[0], y + da[1])`. -/
def moveTo (n : Node) (a : Action) : Node :=
  (n.1 + a.delta.1, n.2 + a.delta.2)

/-- `planning_utils.is_valid_node`: in bounds and not an obstacle.
With `nrows = 0` the bound `n = -1` rejects every index, as in Python. -/
def is_valid_node (g : Grid) (node : Node) : Bool :=
  let n : ℤ := (g.nrows : ℤ) - 1
  let m : ℤ := (g.ncols : ℤ) - 1
  if node.1 < 0 ∨ node.1 > n ∨ node.2 < 0 ∨ node.2 > m then false
  else if g.blocked node.1 node.2 then false
  else true

/-- `planning_utils.valid_actions`: the actions whose destination is a valid
node, in enum order. -/
def valid_actions (g : Grid) (cur : Node) : List Action :=
  actionList.filter (fun a => is_valid_node g (moveTo cur a))

/-! ### Bresenham rasterization

`motion_planning.py` imports `bresenham` from the `bresenham` PyPI package.
That library is not part of this repository's sources; the definition below
is that package's integer line algorithm (both endpoints included),
transcribed for the embedding of `prune_path`. -/

/-- One step of the bresenham generator loop: given the error term `D` and
offset `y`, emit the point for column `x` and update `(y, D)`. -/
def bresenhamStep (x0 y0 : ℤ) (xx xy yx yy dx dy : ℤ)
    (st : ℤ × ℤ × List Node) (x : ℕ) : ℤ × ℤ × List Node :=
  let y := st.1
  let D := st.2.1
  let acc := st.2.2
  let pt : Node := (x0 + x * xx + y * yx, y0 + x * xy + y * yy)
  if D ≥ 0 then
    (y + 1, D - 2 * dx + 2 * dy, acc ++ [pt])
  else
    (y, D + 2 * dy, acc ++ [pt])

/-- The `bresenham(x0, y0, x1, y1)` generator of the `bresenham` PyPI
package, as the list of the points it yields. -/
def bresenham (x0 y0 x1 y1 : ℤ) : List Node :=
  let dx0 := x1 - x0
  let dy0 := y1 - y0
  let xsign : ℤ := if dx0 > 0 then 1 else -1
  let ysign : ℤ := if dy0 > 0 then 1 else -1
  let dxa := |dx0|
  let dya := |dy0|
  let p : ℤ × ℤ × ℤ × ℤ × ℤ × ℤ :=
    if dxa > dya then (dxa, dya, xsign, 0, 0, ysign)
    else (dya, dxa, 0, ysign, xsign, 0)
  match p with
  | (dx, dy, xx, xy, yx, yy) =>
    ((List.range (dx.toNat + 1)).foldl
      (bresenhamStep x0 y0 xx xy yx yy dx dy) (0, 2 * dy - dx, [])).2.2

/-- Numpy 2-d indexing `grid[i, j]` for integer `i, j`: negative indices
wrap once; an index out of `[-size, size)` raises (`none`). -/
def pyGet (g : Grid) (i j : ℤ) : Option Bool :=
  if -(g.nrows : ℤ) ≤ i ∧ i < (g.nrows : ℤ) ∧ -(g.ncols : ℤ) ≤ j ∧ j < (g.ncols : ℤ) then
    some (g.blocked (if i < 0 then i + g.nrows else i) (if j < 0 then j + g.ncols else j))
  else none

/-- The `for pt in bresenham(...): if grid[pt[0], pt[1]]: ...` scan of
`prune_path`: `some true` when a blocked cell is reached first, `some false`
when every point is clear, `none` when an out-of-bounds access raises
first. -/
def segBlocked (g : Grid) : List Node → Option Bool
  | [] => some false
  | p :: rest =>
    match pyGet g p.1 p.2 with
    | none => none
    | some true => some true
    | some false => segBlocked g rest

/-- `prune_path path grid` on the path `first :: tail`, recursing
structurally on `tail` (the source recurses on `path[1:]` when the segment
is blocked and on `path[:1] + path[2:]` when it is clear; both keep the
tail's tail, so carrying the head separately makes the recursion
structural). -/
def pruneFrom (g : Grid) (first : Node) : List Node → Option (List Node)
  | [] => some [first]
  | [x] => some [first, x]
  | x :: y :: rest =>
    match segBlocked g (bresenham first.1 first.2 y.1 y.2) with
    | none => none
    | some true => (pruneFrom g x (y :: rest)).map (fun r => first :: r)
    | some false => pruneFrom g first (y :: rest)

/-- `motion_planning.prune_path`.  `none` mirrors an `IndexError` escaping
from the grid lookups. -/
def prune_path (g : Grid) : List Node → Option (List Node)
  | [] => some []
  | p :: rest => pruneFrom g p rest

/-! ### Exact cost arithmetic

Every float the search manipulates is, ideally, `a + b * sqrt 2` (a path
cost: `a` cardinal moves of cost `1`, `b` diagonal moves of cost `2**0.5`)
or such a value plus a Euclidean heuristic `sqrt m` with `m` the squared
integer distance (`heuristic` is `np.linalg.norm` of an integer vector).
We represent those values exactly and decide comparisons with a verified
sign procedure. -/

/-- A path cost `a + b * sqrt 2`. -/
abbrev GCost : Type := ℤ × ℤ

/-- A frontier priority `g + sqrt m`: the path cost plus the heuristic of
the queued node, with `m` the squared Euclidean distance to the goal. -/
abbrev FCost : Type := GCost × ℕ

/-- The real value of a path cost. -/
noncomputable def realG (g : GCost) : ℝ := (g.1 : ℝ) + (g.2 : ℝ) * Real.sqrt 2

/-- The real value of a frontier priority. -/
noncomputable def realF (f : FCost) : ℝ := realG f.1 + Real.sqrt (f.2 : ℝ)

/-- What an `Ordering` asserts about a real number's sign. -/
def OrdSpec (o : Ordering) (x : ℝ) : Prop :=
  match o with
  | .lt => x < 0
  | .eq => x = 0
  | .gt => 0 < x

/-- Sign of `c + d * sqrt 2` for integers `c`, `d`. -/
def sgn1 (c d : ℤ) : Ordering :=
  if 0 ≤ c ∧ 0 ≤ d then (if c = 0 ∧ d = 0 then .eq else .gt)
  else if c ≤ 0 ∧ d ≤ 0 then .lt
  else if 0 < c then (if 2 * d ^ 2 < c ^ 2 then .gt else .lt)
  else (if c ^ 2 < 2 * d ^ 2 then .gt else .lt)

/-- Sign of `c + d * sqrt 2 + sqrt N`. -/
def sgn2 (c d : ℤ) (N : ℕ) : Ordering :=
  match sgn1 c d with
  | .gt => .gt
  | .eq => if N = 0 then .eq else .gt
  | .lt => sgn1 ((N : ℤ) - c ^ 2 - 2 * d ^ 2) (-2 * c * d)

/-- Sign of `c + d * sqrt 2 - sqrt N`. -/
def sgn3 (c d : ℤ) (N : ℕ) : Ordering :=
  match sgn1 c d with
  | .lt => .lt
  | .eq => if N = 0 then .eq else .lt
  | .gt => sgn1 (c ^ 2 + 2 * d ^ 2 - (N : ℤ)) (2 * c * d)

/-- Sign of `p + q * sqrt 2 + sqrt n - sqrt m`: the comparison of two
frontier priorities. -/
def sgnE (p q : ℤ) (n m : ℕ) : Ordering :=
  if m ≤ n then
    match sgn1 p q with
    | .gt => .gt
    | .eq => if m = n then .eq else .gt
    | .lt => sgn3 ((m : ℤ) + (n : ℤ) - p ^ 2 - 2 * q ^ 2) (-2 * p * q) (4 * m * n)
  else
    match sgn1 p q with
    | .lt => .lt
    | .eq => .lt
    | .gt => sgn2 (p ^ 2 + 2 * q ^ 2 - (m : ℤ) - (n : ℤ)) (2 * p * q) (4 * m * n)

/-- Comparison of frontier priorities, by real value. -/
def cmpF (x y : FCost) : Ordering :=
  sgnE (x.1.1 - y.1.1) (x.1.2 - y.1.2) x.2 y.2

theorem two_sqrt_sq : Real.sqrt 2 ^ 2 = 2 := Real.sq_sqrt (by norm_num)

theorem two_sqrt_pos : 0 < Real.sqrt 2 := Real.sqrt_pos.mpr (by norm_num)

/-- `sqrt 2` is irrational: no integer pair with `d ≠ 0` has
`c ^ 2 = 2 * d ^ 2`. -/
theorem int_sq_ne_two_mul_sq (c d : ℤ) (hd : d ≠ 0) : c ^ 2 ≠ 2 * d ^ 2 := by
  intro h
  have hd' : (d : ℝ) ≠ 0 := Int.cast_ne_zero.mpr hd
  have h2 : ((c : ℝ) / d) ^ 2 = 2 := by
    field_simp
    exact_mod_cast h
  have habs : ((|(c : ℚ) / (d : ℚ)| : ℚ) : ℝ) = Real.sqrt 2 := by
    rw [← h2, Real.sqrt_sq_eq_abs]
    push_cast
    ring_nf
  exact Rat.not_irrational _ (habs ▸ irrational_sqrt_two)

theorem sgn1_spec (c d : ℤ) : OrdSpec (sgn1 c d) ((c : ℝ) + (d : ℝ) * Real.sqrt 2) := by
  by_cases h1 : 0 ≤ c ∧ 0 ≤ d
  · by_cases h2 : c = 0 ∧ d = 0
    · simp [sgn1, h1, h2, OrdSpec]
    · -- 0 ≤ c, 0 ≤ d, not both zero
      simp only [sgn1, if_pos h1, if_neg h2]
      have hc : (0 : ℝ) ≤ c := by exact_mod_cast h1.1
      have hdd : (0 : ℝ) ≤ d := by exact_mod_cast h1.2
      have hmul : 0 ≤ (d : ℝ) * Real.sqrt 2 := mul_nonneg hdd two_sqrt_pos.le
      show (0 : ℝ) < _
      rcases (not_and_or.mp h2) with h | h
      · have : (0 : ℝ) < c := by
          have := lt_of_le_of_ne h1.1 (Ne.symm h)
          exact_mod_cast this
        linarith
      · have hd0 : (0 : ℝ) < d := by
          have := lt_of_le_of_ne h1.2 (Ne.symm h)
          exact_mod_cast this
        have : 0 < (d : ℝ) * Real.sqrt 2 := mul_pos hd0 two_sqrt_pos
        linarith
  · by_cases h3 : c ≤ 0 ∧ d ≤ 0
    · -- c ≤ 0, d ≤ 0, and not (0 ≤ c ∧ 0 ≤ d), so not both zero
      simp only [sgn1, if_neg h1, if_pos h3]
      have hc : (c : ℝ) ≤ 0 := by exact_mod_cast h3.1
      have hdd : (d : ℝ) ≤ 0 := by exact_mod_cast h3.2
      show _ < (0 : ℝ)
      rcases (not_and_or.mp h1) with h | h
      · have : (c : ℝ) < 0 := by exact_mod_cast Int.not_le.mp h
        have : (d : ℝ) * Real.sqrt 2 ≤ 0 := mul_nonpos_of_nonpos_of_nonneg hdd two_sqrt_pos.le
        linarith
      · have hd0 : (d : ℝ) < 0 := by exact_mod_cast Int.not_le.mp h
        have : (d : ℝ) * Real.sqrt 2 < 0 := mul_neg_of_neg_of_pos hd0 two_sqrt_pos
        linarith
    · by_cases h4 : 0 < c
      · -- 0 < c, and necessarily d < 0
        have hd0 : d < 0 := by
          rcases not_and_or.mp h1 with h | h
          · exact absurd h4.le (by simpa using h)
          · exact Int.not_le.mp h
        have hc : (0 : ℝ) < c := by exact_mod_cast h4
        have hdr : (d : ℝ) < 0 := by exact_mod_cast hd0
        have hfac : (0 : ℝ) < (c : ℝ) - d * Real.sqrt 2 := by nlinarith [two_sqrt_pos]
        by_cases h5 : 2 * d ^ 2 < c ^ 2
        · simp only [sgn1, if_neg h1, if_neg h3, if_pos h4, if_pos h5]
          have hsq : 2 * (d : ℝ) ^ 2 < (c : ℝ) ^ 2 := by exact_mod_cast h5
          show (0 : ℝ) < _
          nlinarith [two_sqrt_sq, hfac]
        · simp only [sgn1, if_neg h1, if_neg h3, if_pos h4, if_neg h5]
          have hlt : c ^ 2 < 2 * d ^ 2 :=
            lt_of_le_of_ne (Int.not_lt.mp h5) (int_sq_ne_two_mul_sq c d hd0.ne)
          have hsq : (c : ℝ) ^ 2 < 2 * (d : ℝ) ^ 2 := by exact_mod_cast hlt
          show _ < (0 : ℝ)
          nlinarith [two_sqrt_sq, hfac]
      · -- c ≤ 0, and necessarily 0 < d
        have hcle : c ≤ 0 := Int.not_lt.mp h4
        have hd0 : 0 < d := by
          rcases not_and_or.mp h3 with h | h
          · exact absurd hcle (by simpa using h)
          · exact Int.not_le.mp h
        have hcr : (c : ℝ) ≤ 0 := by exact_mod_cast hcle
        have hdr : (0 : ℝ) < d := by exact_mod_cast hd0
        have hfac : (0 : ℝ) < (d : ℝ) * Real.sqrt 2 - c := by nlinarith [two_sqrt_pos]
        by_cases h6 : c ^ 2 < 2 * d ^ 2
        · simp only [sgn1, if_neg h1, if_neg h3, if_neg h4, if_pos h6]
          have hsq : (c : ℝ) ^ 2 < 2 * (d : ℝ) ^ 2 := by exact_mod_cast h6
          show (0 : ℝ) < _
          nlinarith [two_sqrt_sq, hfac]
        · simp only [sgn1, if_neg h1, if_neg h3, if_neg h4, if_neg h6]
          have hlt : 2 * d ^ 2 < c ^ 2 :=
            lt_of_le_of_ne (Int.not_lt.mp h6) fun h => int_sq_ne_two_mul_sq c d hd0.ne' h.symm
          have hsq : 2 * (d : ℝ) ^ 2 < (c : ℝ) ^ 2 := by exact_mod_cast hlt
          show _ < (0 : ℝ)
          nlinarith [two_sqrt_sq, hfac]

/-- For nonnegative reals, the sign of `u - v` is the sign of `u² - v²`. -/
theorem ordspec_of_sq {o : Ordering} {u v : ℝ} (hu : 0 ≤ u) (hv : 0 ≤ v)
    (h : OrdSpec o (u ^ 2 - v ^ 2)) : OrdSpec o (u - v) := by
  cases o with
  | lt =>
    have h2 : u ^ 2 < v ^ 2 := by have := h; simpa [OrdSpec, sub_neg] using this
    have : u < v := by nlinarith
    simpa [OrdSpec, sub_neg] using this
  | eq =>
    have h2 : u ^ 2 = v ^ 2 := by have := h; simpa [OrdSpec, sub_eq_zero] using this
    have hfac : (u - v) * (u + v) = 0 := by nlinarith
    rcases mul_eq_zero.mp hfac with h3 | h3
    · simpa [OrdSpec] using h3
    · have hu0 : u = 0 := by linarith
      have hv0 : v = 0 := by linarith
      simp [OrdSpec, hu0, hv0]
  | gt =>
    have h2 : v ^ 2 < u ^ 2 := by have := h; simpa [OrdSpec, sub_pos] using this
    have : v < u := by nlinarith
    simpa [OrdSpec, sub_pos] using this

theorem sgn2_spec (c d : ℤ) (N : ℕ) :
    OrdSpec (sgn2 c d N) ((c : ℝ) + (d : ℝ) * Real.sqrt 2 + Real.sqrt (N : ℝ)) := by
  have hA := sgn1_spec c d
  unfold sgn2
  cases hcd : sgn1 c d with
  | gt =>
    rw [hcd] at hA
    have : (0 : ℝ) < (c : ℝ) + d * Real.sqrt 2 := hA
    show (0 : ℝ) < _
    have := Real.sqrt_nonneg (N : ℝ)
    linarith
  | eq =>
    rw [hcd] at hA
    have hz : (c : ℝ) + d * Real.sqrt 2 = 0 := hA
    by_cases hN : N = 0
    · simp [hN, OrdSpec, hz]
    · simp only [hN, if_false]
      have : (0 : ℝ) < Real.sqrt (N : ℝ) :=
        Real.sqrt_pos.mpr (by exact_mod_cast Nat.pos_of_ne_zero hN)
      show (0 : ℝ) < _
      linarith
  | lt =>
    rw [hcd] at hA
    have hAneg : (c : ℝ) + d * Real.sqrt 2 < 0 := hA
    have h2 := sgn1_spec ((N : ℤ) - c ^ 2 - 2 * d ^ 2) (-2 * c * d)
    have hrw : (((N : ℤ) - c ^ 2 - 2 * d ^ 2 : ℤ) : ℝ) + ((-2 * c * d : ℤ) : ℝ) * Real.sqrt 2
        = Real.sqrt (N : ℝ) ^ 2 - (-((c : ℝ) + d * Real.sqrt 2)) ^ 2 := by
      rw [Real.sq_sqrt (by positivity : (0 : ℝ) ≤ (N : ℝ))]
      push_cast
      nlinarith [two_sqrt_sq]
    rw [hrw] at h2
    have h3 := ordspec_of_sq (Real.sqrt_nonneg _) (by linarith : (0 : ℝ) ≤ -((c : ℝ) + d * Real.sqrt 2)) h2
    have : Real.sqrt (N : ℝ) - -((c : ℝ) + d * Real.sqrt 2)
        = (c : ℝ) + d * Real.sqrt 2 + Real.sqrt (N : ℝ) := by ring
    rwa [this] at h3

theorem sgn3_spec (c d : ℤ) (N : ℕ) :
    OrdSpec (sgn3 c d N) ((c : ℝ) + (d : ℝ) * Real.sqrt 2 - Real.sqrt (N : ℝ)) := by
  have hA := sgn1_spec c d
  unfold sgn3
  cases hcd : sgn1 c d with
  | lt =>
    rw [hcd] at hA
    have : (c : ℝ) + d * Real.sqrt 2 < 0 := hA
    show _ < (0 : ℝ)
    have := Real.sqrt_nonneg (N : ℝ)
    linarith
  | eq =>
    rw [hcd] at hA
    have hz : (c : ℝ) + d * Real.sqrt 2 = 0 := hA
    by_cases hN : N = 0
    · simp [hN, OrdSpec, hz]
    · simp only [hN, if_false]
      have : (0 : ℝ) < Real.sqrt (N : ℝ) :=
        Real.sqrt_pos.mpr (by exact_mod_cast Nat.pos_of_ne_zero hN)
      show _ < (0 : ℝ)
      linarith
  | gt =>
    rw [hcd] at hA
    have hApos : (0 : ℝ) < (c : ℝ) + d * Real.sqrt 2 := hA
    have h2 := sgn1_spec (c ^ 2 + 2 * d ^ 2 - (N : ℤ)) (2 * c * d)
    have hrw : ((c ^ 2 + 2 * d ^ 2 - (N : ℤ) : ℤ) : ℝ) + ((2 * c * d : ℤ) : ℝ) * Real.sqrt 2
        = ((c : ℝ) + d * Real.sqrt 2) ^ 2 - Real.sqrt (N : ℝ) ^ 2 := by
      rw [Real.sq_sqrt (by positivity : (0 : ℝ) ≤ (N : ℝ))]
      push_cast
      nlinarith [two_sqrt_sq]
    rw [hrw] at h2
    exact ordspec_of_sq hApos.le (Real.sqrt_nonneg _) h2

theorem sqrt_four_mul (m n : ℕ) :
    Real.sqrt ((4 * m * n : ℕ) : ℝ) = 2 * (Real.sqrt (m : ℝ) * Real.sqrt (n : ℝ)) := by
  push_cast
  rw [show ((4 : ℝ) * m * n) = 2 ^ 2 * ((m : ℝ) * (n : ℝ)) by ring,
    Real.sqrt_mul (by positivity), Real.sqrt_sq (by norm_num),
    Real.sqrt_mul (by positivity)]

theorem sgnE_spec (p q : ℤ) (n m : ℕ) :
    OrdSpec (sgnE p q n m)
      ((p : ℝ) + (q : ℝ) * Real.sqrt 2 + Real.sqrt (n : ℝ) - Real.sqrt (m : ℝ)) := by
  have hA := sgn1_spec p q
  by_cases hmn : m ≤ n
  · -- sqrt n - sqrt m ≥ 0
    have hC : Real.sqrt (m : ℝ) ≤ Real.sqrt (n : ℝ) :=
      Real.sqrt_le_sqrt (by exact_mod_cast hmn)
    unfold sgnE
    rw [if_pos hmn]
    cases hpq : sgn1 p q with
    | gt =>
      rw [hpq] at hA
      have : (0 : ℝ) < (p : ℝ) + q * Real.sqrt 2 := hA
      show (0 : ℝ) < _
      linarith
    | eq =>
      rw [hpq] at hA
      have hz : (p : ℝ) + q * Real.sqrt 2 = 0 := hA
      by_cases hmn2 : m = n
      · simp [hmn2, OrdSpec, hz]
      · simp only [hmn2, if_false]
        have : Real.sqrt (m : ℝ) < Real.sqrt (n : ℝ) := by
          apply Real.sqrt_lt_sqrt (by positivity)
          exact_mod_cast lt_of_le_of_ne hmn hmn2
        show (0 : ℝ) < _
        linarith
    | lt =>
      rw [hpq] at hA
      have hAneg : (p : ℝ) + q * Real.sqrt 2 < 0 := hA
      have h2 := sgn3_spec ((m : ℤ) + (n : ℤ) - p ^ 2 - 2 * q ^ 2) (-2 * p * q) (4 * m * n)
      have hn2 : Real.sqrt (n : ℝ) ^ 2 = (n : ℝ) := Real.sq_sqrt (by positivity)
      have hm2 : Real.sqrt (m : ℝ) ^ 2 = (m : ℝ) := Real.sq_sqrt (by positivity)
      have hrw : (((m : ℤ) + (n : ℤ) - p ^ 2 - 2 * q ^ 2 : ℤ) : ℝ)
            + ((-2 * p * q : ℤ) : ℝ) * Real.sqrt 2 - Real.sqrt ((4 * m * n : ℕ) : ℝ)
          = (Real.sqrt (n : ℝ) - Real.sqrt (m : ℝ)) ^ 2
            - (-((p : ℝ) + q * Real.sqrt 2)) ^ 2 := by
        rw [sqrt_four_mul]
        push_cast
        linear_combination (q : ℝ) ^ 2 * two_sqrt_sq - hn2 - hm2
      rw [hrw] at h2
      have h3 := ordspec_of_sq (by linarith : (0 : ℝ) ≤ Real.sqrt (n : ℝ) - Real.sqrt (m : ℝ))
        (by linarith : (0 : ℝ) ≤ -((p : ℝ) + q * Real.sqrt 2)) h2
      have heq : Real.sqrt (n : ℝ) - Real.sqrt (m : ℝ) - -((p : ℝ) + q * Real.sqrt 2)
          = (p : ℝ) + q * Real.sqrt 2 + Real.sqrt (n : ℝ) - Real.sqrt (m : ℝ) := by ring
      rwa [heq] at h3
  · -- n < m : sqrt m - sqrt n > 0
    have hnm : (n : ℕ) < m := Nat.lt_of_not_le hmn
    have hB : Real.sqrt (n : ℝ) < Real.sqrt (m : ℝ) :=
      Real.sqrt_lt_sqrt (by positivity) (by exact_mod_cast hnm)
    unfold sgnE
    rw [if_neg hmn]
    cases hpq : sgn1 p q with
    | lt =>
      rw [hpq] at hA
      have : (p : ℝ) + q * Real.sqrt 2 < 0 := hA
      show _ < (0 : ℝ)
      linarith
    | eq =>
      rw [hpq] at hA
      have hz : (p : ℝ) + q * Real.sqrt 2 = 0 := hA
      show _ < (0 : ℝ)
      linarith
    | gt =>
      rw [hpq] at hA
      have hApos : (0 : ℝ) < (p : ℝ) + q * Real.sqrt 2 := hA
      have h2 := sgn2_spec (p ^ 2 + 2 * q ^ 2 - (m : ℤ) - (n : ℤ)) (2 * p * q) (4 * m * n)
      have hn2 : Real.sqrt (n : ℝ) ^ 2 = (n : ℝ) := Real.sq_sqrt (by positivity)
      have hm2 : Real.sqrt (m : ℝ) ^ 2 = (m : ℝ) := Real.sq_sqrt (by positivity)
      have hrw : ((p ^ 2 + 2 * q ^ 2 - (m : ℤ) - (n : ℤ) : ℤ) : ℝ)
            + ((2 * p * q : ℤ) : ℝ) * Real.sqrt 2 + Real.sqrt ((4 * m * n : ℕ) : ℝ)
          = ((p : ℝ) + q * Real.sqrt 2) ^ 2
            - (Real.sqrt (m : ℝ) - Real.sqrt (n : ℝ)) ^ 2 := by
        rw [sqrt_four_mul]
        push_cast
        linear_combination hn2 + hm2 - (q : ℝ) ^ 2 * two_sqrt_sq
      rw [hrw] at h2
      have h3 := ordspec_of_sq hApos.le
        (by linarith : (0 : ℝ) ≤ Real.sqrt (m : ℝ) - Real.sqrt (n : ℝ)) h2
      have heq : (p : ℝ) + q * Real.sqrt 2 - (Real.sqrt (m : ℝ) - Real.sqrt (n : ℝ))
          = (p : ℝ) + q * Real.sqrt 2 + Real.sqrt (n : ℝ) - Real.sqrt (m : ℝ) := by ring
      rwa [heq] at h3

/-- The frontier comparison decides the order of the ideal real priorities:
this is what justifies using `cmpF` for the float comparisons Python's
`PriorityQueue` performs. -/
theorem cmpF_spec (x y : FCost) : OrdSpec (cmpF x y) (realF x - realF y) := by
  have h := sgnE_spec (x.1.1 - y.1.1) (x.1.2 - y.1.2) x.2 y.2
  have heq : ((x.1.1 - y.1.1 : ℤ) : ℝ) + ((x.1.2 - y.1.2 : ℤ) : ℝ) * Real.sqrt 2
        + Real.sqrt (x.2 : ℝ) - Real.sqrt (y.2 : ℝ) = realF x - realF y := by
    unfold realF realG
    push_cast
    ring
  rw [heq] at h
  exact h

/-! ### GridBuilder: `create_grid` -/

/-- One row of the parsed `colliders.csv` data: center coordinates and
half-extents, idealized as exact rationals. -/
structure Obstacle where
  north : ℚ
  east : ℚ
  alt : ℚ
  dNorth : ℚ
  dEast : ℚ
  dAlt : ℚ
  deriving DecidableEq, Repr

/-- Python `int(...)` on a float: truncation toward zero. -/
def pyInt (x : ℚ) : ℤ := if 0 ≤ x then ⌊x⌋ else -⌊-x⌋

/-- `int(np.clip(v, 0, size - 1))`: `np.clip` is
`minimum(amax, maximum(v, amin))`, then truncate. -/
def clampIdx (v : ℚ) (size : ℤ) : ℤ := pyInt (min (max v 0) ((size : ℚ) - 1))

/-- Minimum of `init` and all elements of `l` (for `np.min` over a
non-empty array, called with the first element as `init`). -/
def qfoldMin (l : List ℚ) (init : ℚ) : ℚ := l.foldl min init

/-- Maximum counterpart of `qfoldMin`. -/
def qfoldMax (l : List ℚ) (init : ℚ) : ℚ := l.foldl max init

/-- `np.floor(np.min(data[:, 0] - data[:, 3]))` as an integer (the source
keeps it as an integral float and converts with `int` on return). -/
def northMinOf (o0 : Obstacle) (data : List Obstacle) : ℤ :=
  ⌊qfoldMin (data.map fun o => o.north - o.dNorth) (o0.north - o0.dNorth)⌋

/-- `np.ceil(np.max(data[:, 0] + data[:, 3]))`. -/
def northMaxOf (o0 : Obstacle) (data : List Obstacle) : ℤ :=
  ⌈qfoldMax (data.map fun o => o.north + o.dNorth) (o0.north + o0.dNorth)⌉

/-- `np.floor(np.min(data[:, 1] - data[:, 4]))`. -/
def eastMinOf (o0 : Obstacle) (data : List Obstacle) : ℤ :=
  ⌊qfoldMin (data.map fun o => o.east - o.dEast) (o0.east - o0.dEast)⌋

/-- `np.ceil(np.max(data[:, 1] + data[:, 4]))`. -/
def eastMaxOf (o0 : Obstacle) (data : List Obstacle) : ℤ :=
  ⌈qfoldMax (data.map fun o => o.east + o.dEast) (o0.east + o0.dEast)⌉

/-- Whether one obstacle marks cell `(i, j)` of the grid: the obstacle's top
clears the drone altitude and `(i, j)` lies in the clipped, safety-expanded
footprint `grid[o0:o1+1, o2:o3+1] = 1`. -/
def obstacleMarks (alt safety : ℚ) (north_min east_min north_size east_size : ℤ)
    (o : Obstacle) (i j : ℤ) : Bool :=
  decide (alt < o.alt + o.dAlt + safety
    ∧ clampIdx (o.north - o.dNorth - safety - (north_min : ℚ)) north_size ≤ i
    ∧ i ≤ clampIdx (o.north + o.dNorth + safety - (north_min : ℚ)) north_size
    ∧ clampIdx (o.east - o.dEast - safety - (east_min : ℚ)) east_size ≤ j
    ∧ j ≤ clampIdx (o.east + o.dEast + safety - (east_min : ℚ)) east_size)

/-- `planning_utils.create_grid`.  `none` mirrors the two raising paths:
`np.min`/`np.max` on an empty array (empty obstacle list) and
`np.zeros` on a negative dimension (possible only with negative
half-extents).  Since `north_max` and `north_min` are integers, the
source's `int(np.ceil(north_max - north_min))` is their difference.
The marking loop only ever writes `1`s, so a cell is blocked exactly when
some obstacle marks it. -/
def create_grid (data : List Obstacle) (drone_altitude safety_distance : ℚ) :
    Option (Grid × ℤ × ℤ) :=
  match data with
  | [] => none
  | o0 :: _ =>
    let north_min := northMinOf o0 data
    let north_size := northMaxOf o0 data - north_min
    let east_min := eastMinOf o0 data
    let east_size := eastMaxOf o0 data - east_min
    if north_size < 0 ∨ east_size < 0 then none
    else some (⟨north_size.toNat, east_size.toNat, fun i j =>
      data.any fun o =>
        obstacleMarks drone_altitude safety_distance north_min east_min
          north_size east_size o i j⟩, north_min, east_min)

/-! ### PathFinder: `a_star`, generic in the cost arithmetic

The search is embedded once, parameterized by the cost bookkeeping: the
claims about termination hold for every heuristic, and the Euclidean
instantiation below fixes the exact-cost model.  `visited = set(start)`
in the source builds the set of the two *coordinates* of the start tuple;
no node tuple ever equals an integer, so for the membership tests the
algorithm performs, the initial visited set is extensionally empty — in
particular `start` itself is not initially visited. -/

/-- The cost bookkeeping of one `a_star` run: `zero` is the `0.0` used for
the start's cumulative cost, `stepCost` adds an action's cost, `mkF`
forms the frontier priority `branch_cost + h(next_node, goal)` (with the
goal baked in), `f0` is the literal `0` priority of the initial
`queue.put((0, start))`, and `cmp` compares priorities. -/
structure CostModel (G F : Type) where
  zero : G
  stepCost : G → Action → G
  mkF : G → Node → F
  f0 : F
  cmp : F → F → Ordering

/-- Strict order on queue entries: priority first, Python tuple order on
the node as tie-break (heapq compares the `(cost, node)` tuples). -/
def entryLT {F : Type} (cmp : F → F → Ordering) (a b : F × Node) : Bool :=
  match cmp a.1 b.1 with
  | .lt => true
  | .gt => false
  | .eq => nodeLT a.2 b.2

/-- Remove the least entry (leftmost among equals) from the queue:
`queue.get()` of `PriorityQueue`. -/
def popMin {F : Type} (cmp : F → F → Ordering) :
    List (F × Node) → Option ((F × Node) × List (F × Node))
  | [] => none
  | e :: rest =>
    match popMin cmp rest with
    | none => some (e, [])
    | some (m, rest') => if entryLT cmp m e then some (m, e :: rest') else some (e, rest)

/-- The mutable state of the search loop. -/
structure SState (G F : Type) where
  queue : List (F × Node)
  visited : List Node
  branch : List (Node × G × Node × Action)

/-- `branch[n]`: the Python dict, as an association list (entries are only
ever inserted for unvisited keys, so keys are unique and order is
irrelevant to lookups). -/
def blookup {G : Type} :
    List (Node × G × Node × Action) → Node → Option (G × Node × Action)
  | [], _ => none
  | (k, v) :: rest, n => if n = k then some v else blookup rest n

/-- One iteration of the inner `for action in valid_actions(...)` loop:
compute the successor's costs and push it if unvisited, recording its
branch entry. -/
def expandStep {G F : Type} (cm : CostModel G F) (cur : Node) (ccost : G)
    (s : SState G F) (a : Action) : SState G F :=
  let nxt := moveTo cur a
  let bc := cm.stepCost ccost a
  let qc := cm.mkF bc nxt
  if nxt ∈ s.visited then s
  else ⟨s.queue ++ [(qc, nxt)], nxt :: s.visited, (nxt, bc, cur, a) :: s.branch⟩

/-- The inner `for action in valid_actions(grid, current_node)` loop:
push every unvisited valid successor, recording its branch entry. -/
def expand {G F : Type} (g : Grid) (cm : CostModel G F) (cur : Node) (ccost : G)
    (st : SState G F) : SState G F :=
  (valid_actions g cur).foldl (expandStep cm cur ccost) st

/-- Outcome of the `while not queue.empty()` loop. -/
inductive LoopRes (G F : Type) where
  | outOfFuel
  | keyErr
  | success (st : SState G F)
  | exhausted (st : SState G F)

/-- The search loop, with explicit fuel (the loop always terminates within
`stdFuel`; see `aLoop_no_fuelOut`).  `keyErr` mirrors a `KeyError` from
`branch[current_node]`. -/
def aLoop {G F : Type} (g : Grid) (cm : CostModel G F) (start goal : Node) :
    ℕ → SState G F → LoopRes G F
  | 0, _ => .outOfFuel
  | fuel + 1, st =>
    match popMin cm.cmp st.queue with
    | none => .exhausted st
    | some ((_, cur), rest) =>
      let st1 : SState G F := ⟨rest, st.visited, st.branch⟩
      match (if cur = start then some cm.zero else (blookup st.branch cur).map (fun v => v.1)) with
      | none => .keyErr
      | some ccost =>
        if cur = goal then .success st1
        else aLoop g cm start goal fuel (expand g cm cur ccost st1)

/-- Outcome of the retrace loop. -/
inductive RRes where
  | fuelOut
  | err
  | ok (l : List Node)

/-- The `while branch[n][1] != start` retrace: appends each predecessor and
finally `start`; `err` mirrors a `KeyError`. -/
def retrace {G : Type} (branch : List (Node × G × Node × Action)) (start : Node) :
    ℕ → Node → List Node → RRes
  | 0, _, _ => .fuelOut
  | fuel + 1, n, acc =>
    match blookup branch n with
    | none => .err
    | some (_, pred, _) =>
      if pred = start then .ok (acc ++ [pred])
      else retrace branch start fuel pred (acc ++ [pred])

/-- Result of `a_star`: a returned `(path, cost)` pair, a raised exception,
or fuel exhaustion (proved impossible). -/
inductive ARes (G : Type) where
  | outOfFuel
  | raised
  | ok (path : List Node) (cost : G)
  deriving DecidableEq

/-- Fuel bound sufficient for any run on `g` (each iteration removes a
queue entry and every push visits a fresh free cell). -/
def stdFuel (g : Grid) : ℕ := 2 * (g.nrows * g.ncols) + 2

/-- `planning_utils.a_star`, generic in the cost model. -/
def aStarG {G F : Type} (g : Grid) (cm : CostModel G F) (start goal : Node) : ARes G :=
  match aLoop g cm start goal (stdFuel g) ⟨[(cm.f0, start)], [], []⟩ with
  | .outOfFuel => .outOfFuel
  | .keyErr => .raised
  | .exhausted _ => .ok [] cm.zero
  | .success st =>
    match blookup st.branch goal with
    | none => .raised
    | some (c, _, _) =>
      match retrace st.branch start (st.branch.length + 1) goal [goal] with
      | .fuelOut => .outOfFuel
      | .err => .raised
      | .ok p => .ok p.reverse c

/-- Squared Euclidean distance: the exact value under the square root in
`heuristic(position, goal_position) = np.linalg.norm(...)`. -/
def sqDist (a b : Node) : ℕ := ((a.1 - b.1) ^ 2 + (a.2 - b.2) ^ 2).toNat

/-- Adding one action's cost (`1` or `2**0.5`) to a path cost. -/
def gStep (gc : GCost) (a : Action) : GCost :=
  if a.isDiag then (gc.1, gc.2 + 1) else (gc.1 + 1, gc.2)

/-- The cost model of the source's `a_star(grid, heuristic, start, goal)`
call: exact `a + b * sqrt 2` path costs and Euclidean heuristic. -/
def euclidCM (goal : Node) : CostModel GCost FCost :=
  ⟨(0, 0), gStep, fun gc n => (gc, sqDist n goal), ((0, 0), 0), cmpF⟩

/-- `a_star` with the Euclidean `heuristic`, as invoked by `plan_path`. -/
def a_star (g : Grid) (start goal : Node) : ARes GCost :=
  aStarG g (euclidCM goal) start goal

/-! ### FlightStateMachine: `motion_planning.MotionPlanning`

Telemetry values are idealized as exact rationals.  The two
`np.linalg.norm(v[0:2]) < 1.0` tests are embedded as the equivalent
squared comparisons (both sides are nonnegative, so `norm v < 1` iff
`norm v ^ 2 < 1`), keeping the state machine exactly decidable. -/

/-- `motion_planning.States`. -/
inductive States where
  | MANUAL | ARMING | TAKEOFF | WAYPOINT | LANDING | DISARMING | PLANNING
  deriving DecidableEq, Repr

/-- A local-frame vector `(north, east, down)`. -/
structure Vec3 where
  n : ℚ
  e : ℚ
  d : ℚ
  deriving DecidableEq, Repr

/-- A global position `(longitude, latitude, altitude)`. -/
structure GeoPos where
  lon : ℚ
  lat : ℚ
  alt : ℚ
  deriving DecidableEq, Repr

/-- A waypoint `[north, east, altitude, heading]` as built by `plan_path`.
`target_position` is stored in the same shape: the initial
`np.array([0.0, 0.0, 0.0])` has no heading slot, but index 3 is only ever
read right after a 4-element waypoint was popped into it, so a dummy `0`
heading is observation-equivalent. -/
structure Waypoint where
  n : ℚ
  e : ℚ
  a : ℚ
  hd : ℚ
  deriving DecidableEq, Repr

/-- The commands the drone issues to the connection (the external command
sink), in issue order. -/
inductive Cmd where
  | arm
  | takeControl
  | takeoff (alt : ℚ)
  | cmdPosition (n e a hd : ℚ)
  | land
  | disarm
  | releaseControl
  | stop
  | setHome (lon lat alt : ℚ)
  | sendWaypoints (wps : List Waypoint)
  deriving DecidableEq, Repr

/-- The observable state of a `MotionPlanning` drone: the fields the
callbacks read and write, plus the issued command trace. -/
structure DroneState where
  flight_state : States
  in_mission : Bool
  armed : Bool
  guided : Bool
  target_position : Waypoint
  waypoints : List Waypoint
  local_position : Vec3
  local_velocity : Vec3
  global_position : GeoPos
  global_home : GeoPos
  cmds : List Cmd
  deriving DecidableEq, Repr

/-- `arming_transition`. -/
def arming_transition (s : DroneState) : DroneState :=
  { s with flight_state := .ARMING, cmds := s.cmds ++ [.arm, .takeControl] }

/-- `takeoff_transition`: takeoff to `target_position[2]`. -/
def takeoff_transition (s : DroneState) : DroneState :=
  { s with flight_state := .TAKEOFF, cmds := s.cmds ++ [.takeoff s.target_position.a] }

/-- `waypoint_transition`: pops the head of the waypoint queue
unconditionally; on an empty queue `self.waypoints.pop(0)` raises
`IndexError` (`none`).  (The source sets `flight_state = WAYPOINT` before
the pop; the exception escapes the handler, so only the raise itself is
observable here.) -/
def waypoint_transition (s : DroneState) : Option DroneState :=
  match s.waypoints with
  | [] => none
  | w :: rest =>
    some { s with flight_state := .WAYPOINT, target_position := w, waypoints := rest,
                  cmds := s.cmds ++ [.cmdPosition w.n w.e w.a w.hd] }

/-- `landing_transition`. -/
def landing_transition (s : DroneState) : DroneState :=
  { s with flight_state := .LANDING, cmds := s.cmds ++ [.land] }

/-- `disarming_transition`. -/
def disarming_transition (s : DroneState) : DroneState :=
  { s with flight_state := .DISARMING, cmds := s.cmds ++ [.disarm, .releaseControl] }

/-- `manual_transition`. -/
def manual_transition (s : DroneState) : DroneState :=
  { s with flight_state := .MANUAL, cmds := s.cmds ++ [.stop], in_mission := false }

/-- `local_position_callback`. -/
def local_position_callback (s : DroneState) : Option DroneState :=
  match s.flight_state with
  | .TAKEOFF =>
    if -1 * s.local_position.d > (0.95 : ℚ) * s.target_position.a then
      waypoint_transition s
    else some s
  | .WAYPOINT =>
    if (s.target_position.n - s.local_position.n) ^ 2
        + (s.target_position.e - s.local_position.e) ^ 2 < 1 then
      if s.waypoints.length > 0 then waypoint_transition s
      else if s.local_velocity.n ^ 2 + s.local_velocity.e ^ 2 < 1 then
        some (landing_transition s)
      else some s
    else some s
  | _ => some s

/-- `velocity_callback`. -/
def velocity_callback (s : DroneState) : DroneState :=
  match s.flight_state with
  | .LANDING =>
    if s.global_position.alt - s.global_home.alt < (0.1 : ℚ) then
      if |s.local_position.d| < (0.05 : ℚ) then disarming_transition s else s
    else s
  | _ => s

/-- Python's `~` applied to a bool: bitwise complement of its int value,
`~True = -2`, `~False = -1`. -/
def pyBoolNot (b : Bool) : ℤ := -(if b then (1 : ℤ) else 0) - 1

/-- The guard `~self.armed & ~self.guided` of the DISARMING branch: `~` on
a Python bool is the *bitwise* complement of its int value, so the
conjunction evaluates to `-1` or `-2` — truthy — for every combination of
`armed` and `guided`. -/
def disarmCheck (armed guided : Bool) : Bool :=
  decide (Int.land (pyBoolNot armed) (pyBoolNot guided) ≠ 0)

/-- The inputs `plan_path` reads from outside the state machine: the home
reference parsed from the first line of `colliders.csv`, the parsed
obstacle records, and the external global-to-local frame converter
(`udacidrone.frame_utils.global_to_local`, out of the core's scope per the
spec, supplied as a pure function). -/
structure PlanEnv where
  lat0 : ℚ
  lon0 : ℚ
  data : List Obstacle
  globalToLocal : GeoPos → GeoPos → Vec3

/-- `geo_utils.local_pos_to_grid_pos`. -/
def local_pos_to_grid_pos (lp : Vec3) (north_offset east_offset : ℤ) : Node :=
  (pyInt lp.n - north_offset, pyInt lp.e - east_offset)

/-- The hardcoded fallback goal of `plan_path` (`USE_MAP = False`). -/
def defaultGoalLon : ℚ := -122.39860730000001

/-- Latitude of the hardcoded fallback goal. -/
def defaultGoalLat : ℚ := 37.79241310505224

/-- `plan_path`: sets the state to PLANNING, builds the grid, runs the
search and the pruning pass, stores the waypoint queue and sends it.
`none` mirrors any exception escaping (`create_grid` on bad data,
`KeyError` in `a_star`, `IndexError` in `prune_path`).  `set_home_position`
only issues a command: `self.global_home` is updated asynchronously by
telemetry, so the conversions use the state's current `global_home`,
as the running program's do. -/
def plan_path (env : PlanEnv) (s0 : DroneState) : Option DroneState :=
  let s1 := { s0 with flight_state := States.PLANNING }
  let s2 := { s1 with target_position := { s1.target_position with a := 10 } }
  let s3 := { s2 with cmds := s2.cmds ++ [Cmd.setHome env.lon0 env.lat0 0] }
  let lp := env.globalToLocal s3.global_position s3.global_home
  match create_grid env.data 10 2 with
  | none => none
  | some (grid, north_offset, east_offset) =>
    let grid_start := local_pos_to_grid_pos lp north_offset east_offset
    let lg := env.globalToLocal ⟨defaultGoalLon, defaultGoalLat, 0⟩ s3.global_home
    let grid_goal := local_pos_to_grid_pos lg north_offset east_offset
    match a_star grid grid_start grid_goal with
    | .ok path _ =>
      match prune_path grid path with
      | none => none
      | some pruned =>
        let wps := pruned.map fun p =>
          Waypoint.mk ((p.1 + north_offset : ℤ) : ℚ) ((p.2 + east_offset : ℤ) : ℚ) 10 0
        some { s3 with waypoints := wps, cmds := s3.cmds ++ [Cmd.sendWaypoints wps] }
    | _ => none

/-- `state_callback`. -/
def state_callback (env : PlanEnv) (s : DroneState) : Option DroneState :=
  if s.in_mission then
    match s.flight_state with
    | .MANUAL => some (arming_transition s)
    | .ARMING => if s.armed then plan_path env s else some s
    | .PLANNING => some (takeoff_transition s)
    | .DISARMING =>
      if disarmCheck s.armed s.guided then some (manual_transition s) else some s
    | _ => some s
  else some s

/-! ### Lemmas about `prune_path` -/

theorem pruneFrom_length (g : Grid) :
    ∀ (l : List Node) (first : Node) (r : List Node),
      pruneFrom g first l = some r → r.length ≤ l.length + 1 := by
  intro l
  induction l with
  | nil =>
    intro first r h
    simp only [pruneFrom, Option.some.injEq] at h
    simp [← h]
  | cons x tail ih =>
    cases tail with
    | nil =>
      intro first r h
      simp only [pruneFrom, Option.some.injEq] at h
      simp [← h]
    | cons y rest =>
      intro first r h
      simp only [pruneFrom] at h
      cases hseg : segBlocked g (bresenham first.1 first.2 y.1 y.2) with
      | none => rw [hseg] at h; exact absurd h (by simp)
      | some b =>
        rw [hseg] at h
        cases b with
        | true =>
          simp only [Option.map_eq_some'] at h
          obtain ⟨r', hr', hfr⟩ := h
          have hlen := ih x r' hr'
          simp only [← hfr, List.length_cons]
          simpa using Nat.succ_le_succ hlen
        | false =>
          have := ih first r h
          simpa using Nat.le_succ_of_le this

theorem prune_path_length (g : Grid) (l r : List Node) (h : prune_path g l = some r) :
    r.length ≤ l.length := by
  cases l with
  | nil =>
    simp only [prune_path, Option.some.injEq] at h
    simp [← h]
  | cons p rest => exact pruneFrom_length g rest p r h

/-! ### Lemmas about `create_grid` -/

theorem foldl_min_le_init (l : List ℚ) (x : ℚ) : l.foldl min x ≤ x := by
  induction l generalizing x with
  | nil => exact le_refl x
  | cons a t ih => exact le_trans (ih (min x a)) (min_le_left x a)

theorem foldl_min_le_mem (l : List ℚ) (x y : ℚ) (hy : y ∈ l) : l.foldl min x ≤ y := by
  induction l generalizing x with
  | nil => cases hy
  | cons a t ih =>
    rcases List.mem_cons.mp hy with rfl | hy'
    · exact le_trans (foldl_min_le_init t (min x y)) (min_le_right x y)
    · exact ih (min x a) hy'

theorem init_le_foldl_max (l : List ℚ) (x : ℚ) : x ≤ l.foldl max x := by
  induction l generalizing x with
  | nil => exact le_refl x
  | cons a t ih => exact le_trans (le_max_left x a) (ih (max x a))

theorem mem_le_foldl_max (l : List ℚ) (x y : ℚ) (hy : y ∈ l) : y ≤ l.foldl max x := by
  induction l generalizing x with
  | nil => cases hy
  | cons a t ih =>
    rcases List.mem_cons.mp hy with rfl | hy'
    · exact le_trans (le_max_right x y) (init_le_foldl_max t (max x y))
    · exact ih (max x a) hy'

theorem pyInt_of_nonneg (x : ℚ) (h : 0 ≤ x) : pyInt x = ⌊x⌋ := if_pos h

/-- If the cell index `i` is in bounds and `v < i + 1`, the clipped
truncated index is at most `i`. -/
theorem clampIdx_le (v : ℚ) (size i : ℤ) (h0 : 0 ≤ i) (hsz : i < size)
    (hv : v < (i : ℚ) + 1) : clampIdx v size ≤ i := by
  have hsz1 : (0 : ℚ) ≤ (size : ℚ) - 1 := by
    have : i + 1 ≤ size := hsz
    have : (1 : ℚ) ≤ (size : ℚ) := by exact_mod_cast le_trans (by omega : (1 : ℤ) ≤ i + 1) this
    linarith
  have hw0 : (0 : ℚ) ≤ min (max v 0) ((size : ℚ) - 1) :=
    le_min (le_max_right v 0) hsz1
  unfold clampIdx
  rw [pyInt_of_nonneg _ hw0]
  rw [Int.floor_le_iff]
  have h1 : min (max v 0) ((size : ℚ) - 1) ≤ max v 0 := min_le_left _ _
  have h2 : max v 0 < (i : ℚ) + 1 := by
    apply max_lt hv
    have : (0 : ℚ) ≤ (i : ℚ) := by exact_mod_cast h0
    linarith
  linarith

/-- If the cell index `i` is in bounds and `i ≤ v`, the clipped truncated
index is at least `i`. -/
theorem le_clampIdx (v : ℚ) (size i : ℤ) (h0 : 0 ≤ i) (hsz : i < size)
    (hv : (i : ℚ) ≤ v) : i ≤ clampIdx v size := by
  have hisz : (i : ℚ) ≤ (size : ℚ) - 1 := by
    have : i ≤ size - 1 := by omega
    calc (i : ℚ) ≤ ((size - 1 : ℤ) : ℚ) := by exact_mod_cast this
    _ = (size : ℚ) - 1 := by push_cast; ring
  have hw : (i : ℚ) ≤ min (max v 0) ((size : ℚ) - 1) :=
    le_min (le_trans hv (le_max_left v 0)) hisz
  have hw0 : (0 : ℚ) ≤ min (max v 0) ((size : ℚ) - 1) :=
    le_trans (by exact_mod_cast h0) hw
  unfold clampIdx
  rw [pyInt_of_nonneg _ hw0]
  exact Int.le_floor.mpr hw

/-- Converse reading of `clampIdx ... ≤ i`: the unclipped value cannot
exceed `i + 1`, provided it does not exceed `size`. -/
theorem le_of_clampIdx_le (v : ℚ) (size i : ℤ) (h0 : 0 ≤ i) (hsz : i < size)
    (hvsz : v ≤ (size : ℚ)) (h : clampIdx v size ≤ i) : v ≤ (i : ℚ) + 1 := by
  by_contra hlt
  push_neg at hlt
  have hi1 : (0 : ℚ) < (i : ℚ) + 1 := by
    have : (0 : ℚ) ≤ (i : ℚ) := by exact_mod_cast h0
    linarith
  have hv0 : (0 : ℚ) < v := lt_trans hi1 hlt
  have hmax : max v 0 = v := max_eq_left hv0.le
  by_cases hcase : v ≤ (size : ℚ) - 1
  · have hw : min (max v 0) ((size : ℚ) - 1) = v := by rw [hmax]; exact min_eq_left hcase
    rw [clampIdx, hw, pyInt_of_nonneg _ hv0.le] at h
    have : i + 1 ≤ ⌊v⌋ := Int.le_floor.mpr (by push_cast; linarith)
    omega
  · push_neg at hcase
    have hw : min (max v 0) ((size : ℚ) - 1) = (size : ℚ) - 1 := by
      rw [hmax]; exact min_eq_right hcase.le
    have hsz1 : (0 : ℚ) ≤ (size : ℚ) - 1 := by
      have : (1 : ℚ) ≤ (size : ℚ) := by exact_mod_cast (by omega : (1 : ℤ) ≤ size)
      linarith
    rw [clampIdx, hw, pyInt_of_nonneg _ hsz1] at h
    have hfl : ⌊(size : ℚ) - 1⌋ = size - 1 := by
      rw [show (size : ℚ) - 1 = ((size - 1 : ℤ) : ℚ) by push_cast; ring, Int.floor_intCast]
    rw [hfl] at h
    have hieq : i = size - 1 := by omega
    subst hieq
    push_cast at hlt
    linarith

/-- Converse reading of `i ≤ clampIdx ...`: the unclipped value is at
least `i`, provided it is nonnegative. -/
theorem ge_of_le_clampIdx (v : ℚ) (size i : ℤ) (h0 : 0 ≤ i) (hv0 : 0 ≤ v)
    (h : i ≤ clampIdx v size) : (i : ℚ) ≤ v := by
  have hmax : max v 0 = v := max_eq_left hv0
  by_cases hcase : v ≤ (size : ℚ) - 1
  · have hw : min (max v 0) ((size : ℚ) - 1) = v := by rw [hmax]; exact min_eq_left hcase
    rw [clampIdx, hw, pyInt_of_nonneg _ hv0] at h
    exact le_trans (by exact_mod_cast Int.le_floor.mp h) (le_refl v)
  · push_neg at hcase
    have hw : min (max v 0) ((size : ℚ) - 1) = (size : ℚ) - 1 := by
      rw [hmax]; exact min_eq_right hcase.le
    rw [clampIdx, hw] at h
    by_cases hsz1 : (0 : ℚ) ≤ (size : ℚ) - 1
    · rw [pyInt_of_nonneg _ hsz1] at h
      have : (i : ℚ) ≤ (size : ℚ) - 1 := le_trans (by exact_mod_cast Int.le_floor.mp h) (le_refl _)
      linarith
    · push_neg at hsz1
      -- size - 1 < 0: the truncated value is nonpositive, so i = 0
      have hfl : pyInt ((size : ℚ) - 1) ≤ 0 := by
        unfold pyInt
        split
        · next hge => exact absurd hge (not_le.mpr hsz1)
        · next hge =>
          have hpos : ((0 : ℤ) : ℚ) ≤ -((size : ℚ) - 1) := by push_cast; linarith
          have hge0 : (0 : ℤ) ≤ ⌊-((size : ℚ) - 1)⌋ := Int.le_floor.mpr hpos
          omega
      have hi0 : i = 0 := le_antisymm (le_trans h hfl) h0
      subst hi0
      simpa using hv0

theorem northMinOf_le {o0 o : Obstacle} {data : List Obstacle} (ho : o ∈ data) :
    ((northMinOf o0 data : ℤ) : ℚ) ≤ o.north - o.dNorth :=
  le_trans (Int.floor_le _) (foldl_min_le_mem _ _ _ (List.mem_map_of_mem _ ho))

theorem le_northMaxOf {o0 o : Obstacle} {data : List Obstacle} (ho : o ∈ data) :
    o.north + o.dNorth ≤ ((northMaxOf o0 data : ℤ) : ℚ) := by
  unfold northMaxOf qfoldMax
  exact le_trans
    (mem_le_foldl_max _ _ _ (List.mem_map_of_mem (fun x => x.north + x.dNorth) ho))
    (Int.le_ceil _)

theorem eastMinOf_le {o0 o : Obstacle} {data : List Obstacle} (ho : o ∈ data) :
    ((eastMinOf o0 data : ℤ) : ℚ) ≤ o.east - o.dEast :=
  le_trans (Int.floor_le _) (foldl_min_le_mem _ _ _ (List.mem_map_of_mem _ ho))

theorem le_eastMaxOf {o0 o : Obstacle} {data : List Obstacle} (ho : o ∈ data) :
    o.east + o.dEast ≤ ((eastMaxOf o0 data : ℤ) : ℚ) := by
  unfold eastMaxOf qfoldMax
  exact le_trans
    (mem_le_foldl_max _ _ _ (List.mem_map_of_mem (fun x => x.east + x.dEast) ho))
    (Int.le_ceil _)

/-- Success shape of `create_grid`: on non-empty data it returns the grid
whose offsets are the floored minima, whose dimensions are the (nonnegative)
bounding-box differences, and whose cells are blocked exactly when some
obstacle marks them. -/
theorem create_grid_some_elim {data : List Obstacle} {alt safety : ℚ} {g : Grid}
    {nm em : ℤ} (h : create_grid data alt safety = some (g, nm, em)) :
    ∃ o0 rest, data = o0 :: rest
      ∧ nm = northMinOf o0 data ∧ em = eastMinOf o0 data
      ∧ 0 ≤ northMaxOf o0 data - northMinOf o0 data
      ∧ 0 ≤ eastMaxOf o0 data - eastMinOf o0 data
      ∧ (g.nrows : ℤ) = northMaxOf o0 data - northMinOf o0 data
      ∧ (g.ncols : ℤ) = eastMaxOf o0 data - eastMinOf o0 data
      ∧ ∀ i j, g.blocked i j = data.any (fun o =>
          obstacleMarks alt safety nm em
            (northMaxOf o0 data - northMinOf o0 data)
            (eastMaxOf o0 data - eastMinOf o0 data) o i j) := by
  cases data with
  | nil => exact absurd h (by simp [create_grid])
  | cons o0 rest =>
    refine ⟨o0, rest, rfl, ?_⟩
    by_cases hneg : northMaxOf o0 (o0 :: rest) - northMinOf o0 (o0 :: rest) < 0
        ∨ eastMaxOf o0 (o0 :: rest) - eastMinOf o0 (o0 :: rest) < 0
    · simp only [create_grid, if_pos hneg] at h
      exact Option.noConfusion h
    · simp only [create_grid, if_neg hneg, Option.some.injEq, Prod.mk.injEq] at h
      obtain ⟨hg, hnm, hem⟩ := h
      push_neg at hneg
      obtain ⟨hns, hes⟩ := hneg
      subst hg hnm hem
      refine ⟨rfl, rfl, hns, hes, ?_, ?_, fun i j => rfl⟩
      · simpa using Int.toNat_of_nonneg hns
      · simpa using Int.toNat_of_nonneg hes

/-- C7 (corrected): `create_grid` fails exactly on the empty obstacle list
— under the amended precondition that every obstacle's horizontal
half-extents are nonnegative (with a negative half-extent a non-empty list
can still fail; see `create_grid_negative_extent_raises`). -/
theorem create_grid_none_iff (data : List Obstacle) (alt safety : ℚ)
    (hext : ∀ o ∈ data, 0 ≤ o.dNorth ∧ 0 ≤ o.dEast) :
    (create_grid data alt safety = none ↔ data = []) := by
  cases data with
  | nil => simp [create_grid]
  | cons o0 rest =>
    simp only [List.cons_ne_nil, iff_false]
    intro h
    have hdn := (hext o0 (by simp)).1
    have hde := (hext o0 (by simp)).2
    have h1 : ((northMinOf o0 (o0 :: rest) : ℤ) : ℚ) ≤ o0.north - o0.dNorth :=
      northMinOf_le (by simp)
    have h2 : o0.north + o0.dNorth ≤ ((northMaxOf o0 (o0 :: rest) : ℤ) : ℚ) :=
      le_northMaxOf (by simp)
    have h3 : ((eastMinOf o0 (o0 :: rest) : ℤ) : ℚ) ≤ o0.east - o0.dEast :=
      eastMinOf_le (by simp)
    have h4 : o0.east + o0.dEast ≤ ((eastMaxOf o0 (o0 :: rest) : ℤ) : ℚ) :=
      le_eastMaxOf (by simp)
    have hns : ¬(northMaxOf o0 (o0 :: rest) - northMinOf o0 (o0 :: rest) < 0
        ∨ eastMaxOf o0 (o0 :: rest) - eastMinOf o0 (o0 :: rest) < 0) := by
      push_neg
      constructor
      · have hq : ((northMinOf o0 (o0 :: rest) : ℤ) : ℚ)
            ≤ ((northMaxOf o0 (o0 :: rest) : ℤ) : ℚ) := by linarith
        have hz : northMinOf o0 (o0 :: rest) ≤ northMaxOf o0 (o0 :: rest) := by
          exact_mod_cast hq
        omega
      · have hq : ((eastMinOf o0 (o0 :: rest) : ℤ) : ℚ)
            ≤ ((eastMaxOf o0 (o0 :: rest) : ℤ) : ℚ) := by linarith
        have hz : eastMinOf o0 (o0 :: rest) ≤ eastMaxOf o0 (o0 :: rest) := by
          exact_mod_cast hq
        omega
    simp only [create_grid, if_neg hns] at h
    exact Option.noConfusion h

/-- The claim's notion of an obstacle tall enough to matter at the flight
altitude (stated from the spec's words, for the refinement check). -/
def obstacleTall (alt safety : ℚ) (o : Obstacle) : Prop :=
  alt < o.alt + o.dAlt + safety

/-- The claim's notion of the unit cell `(i, j)` lying strictly inside the
safety-expanded footprint of some tall obstacle (stated from the spec's
words: footprint expanded by the margin, cell strictly within it). -/
def CellStrictlyInside (data : List Obstacle) (alt safety : ℚ) (nm em i j : ℤ) : Prop :=
  ∃ o ∈ data, obstacleTall alt safety o
    ∧ o.north - o.dNorth - safety < ((nm + i : ℤ) : ℚ)
    ∧ ((nm + i + 1 : ℤ) : ℚ) < o.north + o.dNorth + safety
    ∧ o.east - o.dEast - safety < ((em + j : ℤ) : ℚ)
    ∧ ((em + j + 1 : ℤ) : ℚ) < o.east + o.dEast + safety

/-- The claim's notion of the unit cell `(i, j)` lying strictly outside the
safety-expanded footprint of every tall obstacle. -/
def CellStrictlyOutside (data : List Obstacle) (alt safety : ℚ) (nm em i j : ℤ) : Prop :=
  ∀ o ∈ data, obstacleTall alt safety o →
    ((nm + i + 1 : ℤ) : ℚ) < o.north - o.dNorth - safety
    ∨ o.north + o.dNorth + safety < ((nm + i : ℤ) : ℚ)
    ∨ ((em + j + 1 : ℤ) : ℚ) < o.east - o.dEast - safety
    ∨ o.east + o.dEast + safety < ((em + j : ℤ) : ℚ)

/-- C6 (corrected): correctness of the rasterization, with the corrected
dimension formula: the grid measures `ceil(max extended) - floor(min
extended)` per axis (not the ceiling of the span; see
`create_grid_dims_not_span`), cells strictly inside some tall obstacle's
expanded footprint are blocked and cells strictly outside all of them are
free. -/
theorem create_grid_spec (data : List Obstacle) (alt safety : ℚ) (g : Grid) (nm em : ℤ)
    (hs : 0 ≤ safety) (hext : ∀ o ∈ data, 0 ≤ o.dNorth ∧ 0 ≤ o.dEast)
    (h : create_grid data alt safety = some (g, nm, em)) :
    (∃ o0 rest, data = o0 :: rest
      ∧ (g.nrows : ℤ) = northMaxOf o0 data - northMinOf o0 data
      ∧ (g.ncols : ℤ) = eastMaxOf o0 data - eastMinOf o0 data
      ∧ nm = northMinOf o0 data ∧ em = eastMinOf o0 data)
    ∧ (∀ i j : ℤ, 0 ≤ i → i < (g.nrows : ℤ) → 0 ≤ j → j < (g.ncols : ℤ) →
        (CellStrictlyInside data alt safety nm em i j → g.blocked i j = true)
        ∧ (CellStrictlyOutside data alt safety nm em i j → g.blocked i j = false)) := by
  obtain ⟨o0, rest, hdata, hnm, hem, hns0, hes0, hrow, hcol, hbl⟩ := create_grid_some_elim h
  subst hdata
  constructor
  · exact ⟨o0, rest, rfl, hrow, hcol, hnm, hem⟩
  intro i j hi0 hi1 hj0 hj1
  rw [hrow] at hi1
  rw [hcol] at hj1
  constructor
  · -- strictly inside some tall footprint → blocked
    rintro ⟨o, ho, htall, hn1, hn2, he1, he2⟩
    rw [hbl]
    apply List.any_eq_true.mpr
    refine ⟨o, ho, ?_⟩
    apply decide_eq_true
    push_cast at hn1 hn2 he1 he2
    refine ⟨htall, ?_, ?_, ?_, ?_⟩
    · apply clampIdx_le _ _ _ hi0 hi1
      linarith
    · apply le_clampIdx _ _ _ hi0 hi1
      linarith
    · apply clampIdx_le _ _ _ hj0 hj1
      linarith
    · apply le_clampIdx _ _ _ hj0 hj1
      linarith
  · -- strictly outside every tall footprint → free
    intro hout
    rw [hbl]
    apply List.any_eq_false.mpr
    intro o ho
    simp only [obstacleMarks, decide_eq_true_eq]
    rintro ⟨htall, ha, hb, hc, hd⟩
    have hdn := (hext o ho).1
    have hde := (hext o ho).2
    -- bounds of the unclipped footprint indices
    have hnlo_ub : o.north - o.dNorth - safety - (nm : ℚ)
        ≤ ((northMaxOf o0 (o0 :: rest) - northMinOf o0 (o0 :: rest) : ℤ) : ℚ) := by
      have h2 : o.north + o.dNorth ≤ ((northMaxOf o0 (o0 :: rest) : ℤ) : ℚ) :=
        le_northMaxOf ho
      rw [hnm]
      push_cast
      linarith
    have hnhi_lb : (0 : ℚ) ≤ o.north + o.dNorth + safety - (nm : ℚ) := by
      have h1 : ((northMinOf o0 (o0 :: rest) : ℤ) : ℚ) ≤ o.north - o.dNorth :=
        northMinOf_le ho
      rw [hnm]
      linarith
    have helo_ub : o.east - o.dEast - safety - (em : ℚ)
        ≤ ((eastMaxOf o0 (o0 :: rest) - eastMinOf o0 (o0 :: rest) : ℤ) : ℚ) := by
      have h2 : o.east + o.dEast ≤ ((eastMaxOf o0 (o0 :: rest) : ℤ) : ℚ) :=
        le_eastMaxOf ho
      rw [hem]
      push_cast
      linarith
    have hehi_lb : (0 : ℚ) ≤ o.east + o.dEast + safety - (em : ℚ) := by
      have h1 : ((eastMinOf o0 (o0 :: rest) : ℤ) : ℚ) ≤ o.east - o.dEast :=
        eastMinOf_le ho
      rw [hem]
      linarith
    have hA := le_of_clampIdx_le _ _ _ hi0 hi1 hnlo_ub ha
    have hB := ge_of_le_clampIdx _ _ _ hi0 hnhi_lb hb
    have hC := le_of_clampIdx_le _ _ _ hj0 hj1 helo_ub hc
    have hD := ge_of_le_clampIdx _ _ _ hj0 hehi_lb hd
    rcases hout o ho htall with hsep | hsep | hsep | hsep
    · push_cast at hsep; linarith
    · push_cast at hsep; linarith
    · push_cast at hsep; linarith
    · push_cast at hsep; linarith

/-! ### Invariants of the generic `a_star` -/

/-- `a ∈ actionList` for every action. -/
theorem mem_actionList (a : Action) : a ∈ actionList := by
  cases a <;> simp [actionList]

/-- Reachability from `start` through valid 8-connected moves (each step
lands on an in-bounds, unblocked cell). -/
inductive Reach (g : Grid) (start : Node) : Node → Prop where
  | refl : Reach g start start
  | step {n n' : Node} (a : Action) : Reach g start n → n' = moveTo n a →
      is_valid_node g n' = true → Reach g start n'

/-- A concrete valid path from `start` (as the node list from `start` to
its final node inclusive) together with its accumulated cost under the
cost model: this is the object `a_star`'s returned `(path, cost)` pair is
proved to be. -/
inductive CPath (g : Grid) {G F : Type} (cm : CostModel G F) (start : Node) :
    List Node → Node → G → Prop where
  | single {a : Action} {n : Node} : n = moveTo start a → is_valid_node g n = true →
      CPath g cm start [start, n] n (cm.stepCost cm.zero a)
  | step {l : List Node} {n : Node} {c : G} {a : Action} {n' : Node} :
      CPath g cm start l n c → n' = moveTo n a → is_valid_node g n' = true →
      CPath g cm start (l ++ [n']) n' (cm.stepCost c a)

theorem CPath.head_last {g : Grid} {G F : Type} {cm : CostModel G F} {start : Node}
    {l : List Node} {n : Node} {c : G} (h : CPath g cm start l n c) :
    l ≠ [] ∧ l.head? = some start ∧ l.getLast? = some n := by
  induction h with
  | single h1 h2 => exact ⟨by simp, rfl, rfl⟩
  | step hp h1 h2 ih =>
    rename_i l0 n0 c0 a0 n0'
    obtain ⟨hne, hhead, _⟩ := ih
    refine ⟨by simp, ?_, by simp⟩
    cases l0 with
    | nil => exact absurd rfl hne
    | cons x t => simpa using hhead

theorem CPath.reach {g : Grid} {G F : Type} {cm : CostModel G F} {start : Node}
    {l : List Node} {n : Node} {c : G} (h : CPath g cm start l n c) :
    Reach g start n := by
  induction h with
  | single h1 h2 => exact Reach.step _ Reach.refl h1 h2
  | step hp h1 h2 ih => exact Reach.step _ ih h1 h2

/-- Well-formedness of the branch association list: keys are fresh when
prepended, every entry records a valid move, and its cost extends its
predecessor's recorded cost (or the start's zero cost). -/
def BranchWF (g : Grid) {G F : Type} (cm : CostModel G F) (start : Node) :
    List (Node × G × Node × Action) → Prop
  | [] => True
  | (k, c, pred, a) :: rest =>
      blookup rest k = none
      ∧ k = moveTo pred a
      ∧ is_valid_node g k = true
      ∧ (if pred = start then c = cm.stepCost cm.zero a
         else ∃ c' p' a', blookup rest pred = some (c', p', a') ∧ c = cm.stepCost c' a)
      ∧ BranchWF g cm start rest

section AStarInv

variable {G F : Type}

/-- The core loop invariant: queue entries are backed by branch entries
(except `start`), branch keys are visited, visited nodes are valid,
reachable, and pairwise distinct, and the branch list is well-formed. -/
structure InvA (g : Grid) (cm : CostModel G F) (start : Node) (st : SState G F) : Prop where
  qvb : ∀ e ∈ st.queue, e.2 = start ∨ (blookup st.branch e.2).isSome
  bk_vis : ∀ k v, blookup st.branch k = some v → k ∈ st.visited
  vis_valid : ∀ n ∈ st.visited, is_valid_node g n = true
  vis_reach : ∀ n ∈ st.visited, Reach g start n
  vis_nodup : st.visited.Nodup
  bwf : BranchWF g cm start st.branch

/-- The closure invariant: a visited node is still queued or all its valid
successors are visited, and a visited goal is still queued. -/
structure InvB (g : Grid) (goal : Node) (st : SState G F) : Prop where
  hclosed : ∀ n ∈ st.visited, n ∈ st.queue.map Prod.snd ∨
      (∀ a ∈ valid_actions g n, moveTo n a ∈ st.visited)
  hgoal : goal ∈ st.visited → goal ∈ st.queue.map Prod.snd

theorem popMin_none_iff (cmp : F → F → Ordering) (l : List (F × Node)) :
    popMin cmp l = none ↔ l = [] := by
  cases l with
  | nil => simp [popMin]
  | cons e rest =>
    simp only [popMin]
    cases h : popMin cmp rest with
    | none => simp
    | some p =>
      obtain ⟨m, rest'⟩ := p
      by_cases hlt : entryLT cmp m e <;> simp [hlt]

theorem popMin_perm (cmp : F → F → Ordering) :
    ∀ (l : List (F × Node)) (e : F × Node) (rest : List (F × Node)),
      popMin cmp l = some (e, rest) → l.Perm (e :: rest) := by
  intro l
  induction l with
  | nil => intro e rest h; simp [popMin] at h
  | cons a t ih =>
    intro e rest h
    cases hp : popMin cmp t with
    | none =>
      have ht : t = [] := (popMin_none_iff cmp t).mp hp
      simp only [popMin, hp] at h
      obtain ⟨rfl, rfl⟩ := h
      rw [ht]
    | some p =>
      obtain ⟨m, rest'⟩ := p
      simp only [popMin, hp] at h
      by_cases hlt : entryLT cmp m a
      · rw [if_pos hlt] at h
        simp only [Option.some.injEq, Prod.mk.injEq] at h
        obtain ⟨rfl, rfl⟩ := h
        have hperm := ih m rest' hp
        exact (hperm.cons a).trans (List.Perm.swap m a rest')
      · rw [if_neg hlt] at h
        simp only [Option.some.injEq, Prod.mk.injEq] at h
        obtain ⟨rfl, rfl⟩ := h
        exact List.Perm.refl _

theorem blookup_append_isSome {l1 l2 : List (Node × G × Node × Action)} {k : Node}
    (h : (blookup l2 k).isSome) : (blookup (l1 ++ l2) k).isSome := by
  induction l1 with
  | nil => simpa using h
  | cons e t ih =>
    obtain ⟨k0, v0⟩ := e
    simp only [List.cons_append, blookup]
    by_cases hk : k = k0
    · simp [hk]
    · simpa [hk] using ih

theorem blookup_split {l : List (Node × G × Node × Action)} {k : Node}
    {v : G × Node × Action} (h : blookup l k = some v) :
    ∃ pre rest, l = pre ++ (k, v) :: rest ∧ ∀ e ∈ pre, e.1 ≠ k := by
  induction l with
  | nil => simp [blookup] at h
  | cons e t ih =>
    obtain ⟨k0, v0⟩ := e
    simp only [blookup] at h
    by_cases hk : k = k0
    · rw [if_pos hk] at h
      refine ⟨[], t, ?_, by simp⟩
      simp only [Option.some.injEq] at h
      rw [← hk, ← h]
      rfl
    · rw [if_neg hk] at h
      obtain ⟨pre, rest, hsplit, hpre⟩ := ih h
      refine ⟨(k0, v0) :: pre, rest, by rw [hsplit]; rfl, ?_⟩
      intro e he
      rcases List.mem_cons.mp he with rfl | he'
      · simpa using fun hc => hk hc.symm
      · exact hpre e he'

theorem bwf_suffix {g : Grid} {cm : CostModel G F} {start : Node} :
    ∀ (pre l : List (Node × G × Node × Action)),
      BranchWF g cm start (pre ++ l) → BranchWF g cm start l := by
  intro pre
  induction pre with
  | nil => intro l h; simpa using h
  | cons e t ih =>
    intro l h
    obtain ⟨k, v⟩ := e
    obtain ⟨c, p, a⟩ := v
    exact ih l h.2.2.2.2

/-- Inside a well-formed branch list, a lookup that succeeds in a suffix
equals the lookup in the whole list. -/
theorem bwf_lookup_append {g : Grid} {cm : CostModel G F} {start : Node} :
    ∀ (pre l : List (Node × G × Node × Action)),
      BranchWF g cm start (pre ++ l) → ∀ k, (blookup l k).isSome →
      blookup (pre ++ l) k = blookup l k := by
  intro pre
  induction pre with
  | nil => intro l _ k _; rfl
  | cons e t ih =>
    intro l hwf k hk
    obtain ⟨k0, c, p, a⟩ := e
    have hnone := hwf.1
    have hrest := hwf.2.2.2.2
    simp only [List.cons_append, blookup]
    by_cases hkk : k = k0
    · exfalso
      subst hkk
      have h2 : (blookup (t.append l) k).isSome := blookup_append_isSome hk
      rw [hnone] at h2
      simp at h2
    · rw [if_neg hkk]
      exact ih l hrest k hk

end AStarInv

/-- The finitely many valid cells of a grid. -/
def validCells (g : Grid) : Finset Node :=
  ((Finset.Icc (0 : ℤ) ((g.nrows : ℤ) - 1)) ×ˢ (Finset.Icc (0 : ℤ) ((g.ncols : ℤ) - 1))).filter
    (fun p => is_valid_node g p = true)

theorem mem_validCells {g : Grid} {n : Node} :
    n ∈ validCells g ↔ is_valid_node g n = true := by
  constructor
  · intro h
    exact (Finset.mem_filter.mp h).2
  · intro h
    apply Finset.mem_filter.mpr
    refine ⟨?_, h⟩
    unfold is_valid_node at h
    by_cases hb : n.1 < 0 ∨ n.1 > (g.nrows : ℤ) - 1 ∨ n.2 < 0 ∨ n.2 > (g.ncols : ℤ) - 1
    · rw [if_pos hb] at h
      exact absurd h (by simp)
    · push_neg at hb
      obtain ⟨h1, h2, h3, h4⟩ := hb
      exact Finset.mem_product.mpr
        ⟨Finset.mem_Icc.mpr ⟨by omega, by omega⟩, Finset.mem_Icc.mpr ⟨by omega, by omega⟩⟩

theorem validCells_card_le (g : Grid) : (validCells g).card ≤ g.nrows * g.ncols := by
  calc (validCells g).card
      ≤ ((Finset.Icc (0 : ℤ) ((g.nrows : ℤ) - 1)) ×ˢ
          (Finset.Icc (0 : ℤ) ((g.ncols : ℤ) - 1))).card := Finset.card_filter_le _ _
  _ = (Finset.Icc (0 : ℤ) ((g.nrows : ℤ) - 1)).card
        * (Finset.Icc (0 : ℤ) ((g.ncols : ℤ) - 1)).card := Finset.card_product _ _
  _ = g.nrows * g.ncols := by
      rw [Int.card_Icc, Int.card_Icc]
      simp only [sub_zero]
      rw [show (g.nrows : ℤ) - 1 + 1 = (g.nrows : ℤ) by ring,
        show (g.ncols : ℤ) - 1 + 1 = (g.ncols : ℤ) by ring]
      simp

section AStarExpand

variable {G F : Type}

/-- The search-loop measure: queue length plus twice the number of valid
cells not yet visited.  Every loop iteration strictly decreases it. -/
def qMeasure (g : Grid) (st : SState G F) : ℕ :=
  st.queue.length + 2 * ((validCells g) \ st.visited.toFinset).card

/-- How the state after expanding a node relates to the state before. -/
structure ExpandRel (g : Grid) (st1 st2 : SState G F) : Prop where
  vis_sub : ∀ n ∈ st1.visited, n ∈ st2.visited
  queue_ext : ∃ d, st2.queue = st1.queue ++ d
  qnew : ∀ e ∈ st2.queue, e ∈ st1.queue ∨ ((blookup st2.branch e.2).isSome ∧ e.2 ∈ st2.visited)
  lookup_mono : ∀ k v, blookup st1.branch k = some v → blookup st2.branch k = some v
  vis_new : ∀ n ∈ st2.visited, n ∈ st1.visited ∨ n ∈ st2.queue.map Prod.snd
  mu_le : qMeasure g st2 ≤ qMeasure g st1

theorem ExpandRel.rfl {g : Grid} (st : SState G F) : ExpandRel g st st where
  vis_sub := fun _ h => h
  queue_ext := ⟨[], by simp⟩
  qnew := fun e he => Or.inl he
  lookup_mono := fun _ _ h => h
  vis_new := fun n hn => Or.inl hn
  mu_le := le_refl _

theorem ExpandRel.trans {g : Grid} {st1 st2 st3 : SState G F}
    (h12 : ExpandRel g st1 st2) (h23 : ExpandRel g st2 st3) : ExpandRel g st1 st3 where
  vis_sub := fun n h => h23.vis_sub n (h12.vis_sub n h)
  queue_ext := by
    obtain ⟨d1, hd1⟩ := h12.queue_ext
    obtain ⟨d2, hd2⟩ := h23.queue_ext
    exact ⟨d1 ++ d2, by rw [hd2, hd1, List.append_assoc]⟩
  qnew := by
    intro e he
    rcases h23.qnew e he with h2 | h2
    · rcases h12.qnew e h2 with h1 | h1
      · exact Or.inl h1
      · refine Or.inr ⟨?_, h23.vis_sub _ h1.2⟩
        obtain ⟨v, hv⟩ := Option.isSome_iff_exists.mp h1.1
        exact Option.isSome_iff_exists.mpr ⟨v, h23.lookup_mono _ _ hv⟩
    · exact Or.inr h2
  lookup_mono := fun k v h => h23.lookup_mono k v (h12.lookup_mono k v h)
  vis_new := by
    intro n hn
    rcases h23.vis_new n hn with h2 | h2
    · rcases h12.vis_new n h2 with h1 | h1
      · exact Or.inl h1
      · right
        obtain ⟨d2, hd2⟩ := h23.queue_ext
        simp only [List.mem_map] at h1 ⊢
        obtain ⟨e, he, hee⟩ := h1
        exact ⟨e, by rw [hd2]; exact List.mem_append_left _ he, hee⟩
    · exact Or.inr h2
  mu_le := le_trans h23.mu_le h12.mu_le

theorem blookup_none_of_not_vis {g : Grid} {cm : CostModel G F} {start : Node}
    {st : SState G F} (hA : InvA g cm start st) {n : Node} (hn : n ∉ st.visited) :
    blookup st.branch n = none := by
  cases h : blookup st.branch n with
  | none => rfl
  | some v => exact absurd (hA.bk_vis n v h) hn

/-- The full inner-loop specification: folding `expandStep` over a list of
valid actions preserves the core invariant, relates the states by
`ExpandRel`, and leaves every listed successor visited. -/
theorem expand_fold_spec {g : Grid} {cm : CostModel G F} {start : Node}
    (cur : Node) (ccost : G) (hreach : Reach g start cur) :
    ∀ (acts : List Action) (st : SState G F),
      (∀ a ∈ acts, is_valid_node g (moveTo cur a) = true) →
      InvA g cm start st →
      (cur = start → ccost = cm.zero) →
      (cur ≠ start → ∃ p' a', blookup st.branch cur = some (ccost, p', a')) →
      InvA g cm start (acts.foldl (expandStep cm cur ccost) st)
      ∧ ExpandRel g st (acts.foldl (expandStep cm cur ccost) st)
      ∧ ∀ a ∈ acts, moveTo cur a ∈ (acts.foldl (expandStep cm cur ccost) st).visited := by
  intro acts
  induction acts with
  | nil =>
    intro st _ hA _ _
    exact ⟨hA, ExpandRel.rfl st, by simp⟩
  | cons a rest ih =>
    intro st hval hA hz hc
    have hvala : is_valid_node g (moveTo cur a) = true := hval a (by simp)
    -- one step
    by_cases hmem : moveTo cur a ∈ st.visited
    · have hstep : expandStep cm cur ccost st a = st := by
        unfold expandStep
        simp [hmem]
      have hrec := ih st (fun b hb => hval b (by simp [hb])) hA hz hc
      rw [List.foldl_cons, hstep]
      refine ⟨hrec.1, hrec.2.1, ?_⟩
      intro b hb
      rcases List.mem_cons.mp hb with rfl | hb'
      · exact hrec.2.1.vis_sub _ hmem
      · exact hrec.2.2 b hb'
    · -- the successor is fresh: pushed and recorded
      set nxt := moveTo cur a with hnxt
      set bc := cm.stepCost ccost a with hbc
      set st' : SState G F :=
        ⟨st.queue ++ [(cm.mkF bc nxt, nxt)], nxt :: st.visited, (nxt, bc, cur, a) :: st.branch⟩
        with hst'
      have hstep : expandStep cm cur ccost st a = st' := by
        unfold expandStep
        simp [hmem, hst']
      have hfresh : blookup st.branch nxt = none := blookup_none_of_not_vis hA hmem
      have hlk_mono : ∀ k v, blookup st.branch k = some v → blookup st'.branch k = some v := by
        intro k v hk
        have hkv : k ∈ st.visited := hA.bk_vis k v hk
        have hkn : k ≠ nxt := fun h => hmem (h ▸ hkv)
        simpa [hst', blookup, hkn] using hk
      have hA' : InvA g cm start st' := by
        refine ⟨?_, ?_, ?_, ?_, ?_, ?_⟩
        · intro e he
          rcases List.mem_append.mp he with he' | he'
          · rcases hA.qvb e he' with h | h
            · exact Or.inl h
            · obtain ⟨v, hv⟩ := Option.isSome_iff_exists.mp h
              exact Or.inr (Option.isSome_iff_exists.mpr ⟨v, hlk_mono _ v hv⟩)
          · simp only [List.mem_singleton] at he'
            subst he'
            exact Or.inr (by simp [hst', blookup])
        · intro k v hk
          by_cases hkn : k = nxt
          · subst hkn; simp [hst']
          · simp only [hst', blookup, if_neg hkn] at hk
            exact List.mem_cons_of_mem _ (hA.bk_vis k v hk)
        · intro n hn
          rcases List.mem_cons.mp hn with rfl | hn'
          · exact hvala
          · exact hA.vis_valid n hn'
        · intro n hn
          rcases List.mem_cons.mp hn with rfl | hn'
          · exact Reach.step a hreach rfl hvala
          · exact hA.vis_reach n hn'
        · exact List.Nodup.cons hmem hA.vis_nodup
        · refine ⟨hfresh, rfl, hvala, ?_, hA.bwf⟩
          by_cases hcs : cur = start
          · rw [if_pos hcs, hbc, hz hcs]
          · rw [if_neg hcs]
            obtain ⟨p', a', hlk⟩ := hc hcs
            exact ⟨ccost, p', a', hlk, hbc⟩
      have hrel : ExpandRel g st st' := by
        refine ⟨?_, ⟨[(cm.mkF bc nxt, nxt)], rfl⟩, ?_, hlk_mono, ?_, ?_⟩
        · exact fun n hn => List.mem_cons_of_mem _ hn
        · intro e he
          rcases List.mem_append.mp he with he' | he'
          · exact Or.inl he'
          · simp only [List.mem_singleton] at he'
            subst he'
            exact Or.inr ⟨by simp [hst', blookup], by simp [hst']⟩
        · intro n hn
          rcases List.mem_cons.mp hn with rfl | hn'
          · right
            simp [hst']
          · exact Or.inl hn'
        · -- the measure drops by one
          unfold qMeasure
          have htf : (st'.visited).toFinset = insert nxt st.visited.toFinset := by
            simp [hst']
          have hsd : validCells g \ insert nxt st.visited.toFinset
              = (validCells g \ st.visited.toFinset).erase nxt := by
            ext x
            simp only [Finset.mem_sdiff, Finset.mem_erase, Finset.mem_insert]
            tauto
          have hin : nxt ∈ validCells g \ st.visited.toFinset :=
            Finset.mem_sdiff.mpr ⟨mem_validCells.mpr hvala, by simpa using hmem⟩
          have hcard : ((validCells g \ st.visited.toFinset).erase nxt).card
              = (validCells g \ st.visited.toFinset).card - 1 :=
            Finset.card_erase_of_mem hin
          have hpos : 0 < (validCells g \ st.visited.toFinset).card :=
            Finset.card_pos.mpr ⟨nxt, hin⟩
          rw [htf, hsd, hcard]
          simp only [hst', List.length_append, List.length_singleton]
          omega
      have hrec := ih st'
        (fun b hb => hval b (by simp [hb]))
        hA' hz
        (fun hcs => by
          obtain ⟨p', a', hlk⟩ := hc hcs
          exact ⟨p', a', hlk_mono _ _ hlk⟩)
      rw [List.foldl_cons, hstep]
      refine ⟨hrec.1, hrel.trans hrec.2.1, ?_⟩
      intro b hb
      rcases List.mem_cons.mp hb with rfl | hb'
      · exact hrec.2.1.vis_sub _ (by simp [hst'])
      · exact hrec.2.2 b hb'

/-- Analysis of one continuing loop iteration: popping `cur` and expanding
it preserves the invariant, strictly decreases the measure, and leaves all
of `cur`'s valid successors visited. -/
theorem loop_step {g : Grid} {cm : CostModel G F} {start : Node} {st : SState G F}
    {f : F} {cur : Node} {rest : List (F × Node)} {ccost : G}
    (hA : InvA g cm start st)
    (hpop : popMin cm.cmp st.queue = some ((f, cur), rest))
    (hcc : (if cur = start then some cm.zero
        else (blookup st.branch cur).map (fun v => v.1)) = some ccost) :
    InvA g cm start (expand g cm cur ccost ⟨rest, st.visited, st.branch⟩)
    ∧ qMeasure g (expand g cm cur ccost ⟨rest, st.visited, st.branch⟩) < qMeasure g st
    ∧ ExpandRel g ⟨rest, st.visited, st.branch⟩ (expand g cm cur ccost ⟨rest, st.visited, st.branch⟩)
    ∧ ∀ a ∈ valid_actions g cur,
        moveTo cur a ∈ (expand g cm cur ccost ⟨rest, st.visited, st.branch⟩).visited := by
  have hperm := popMin_perm cm.cmp st.queue (f, cur) rest hpop
  have hcurq : (f, cur) ∈ st.queue := hperm.mem_iff.mpr (by simp)
  have hrestq : ∀ e ∈ rest, e ∈ st.queue := fun e he =>
    hperm.mem_iff.mpr (List.mem_cons_of_mem _ he)
  have hlen : st.queue.length = rest.length + 1 := by
    simpa using hperm.length_eq
  have hA1 : InvA g cm start ⟨rest, st.visited, st.branch⟩ :=
    ⟨fun e he => hA.qvb e (hrestq e he), hA.bk_vis, hA.vis_valid, hA.vis_reach,
      hA.vis_nodup, hA.bwf⟩
  have hreach : Reach g start cur := by
    rcases hA.qvb _ hcurq with h | h
    · simp only at h
      rw [h]
      exact Reach.refl
    · obtain ⟨v, hv⟩ := Option.isSome_iff_exists.mp h
      exact hA.vis_reach cur (hA.bk_vis cur v hv)
  have hz : cur = start → ccost = cm.zero := by
    intro hcs
    rw [if_pos hcs] at hcc
    simpa using hcc.symm
  have hcst : cur ≠ start → ∃ p' a', blookup st.branch cur = some (ccost, p', a') := by
    intro hcs
    rw [if_neg hcs] at hcc
    simp only [Option.map_eq_some'] at hcc
    obtain ⟨⟨c', p', a'⟩, hv, hc1⟩ := hcc
    have hc2 : c' = ccost := hc1
    subst hc2
    exact ⟨p', a', hv⟩
  have hvalacts : ∀ a ∈ valid_actions g cur, is_valid_node g (moveTo cur a) = true := by
    intro a ha
    exact (List.mem_filter.mp ha).2
  have hmain := expand_fold_spec cur ccost hreach (valid_actions g cur)
    ⟨rest, st.visited, st.branch⟩ hvalacts hA1 hz hcst
  refine ⟨hmain.1, ?_, hmain.2.1, hmain.2.2⟩
  have hmu1 : qMeasure g (⟨rest, st.visited, st.branch⟩ : SState G F) + 1 = qMeasure g st := by
    unfold qMeasure
    simp only
    omega
  have hexp : expand g cm cur ccost ⟨rest, st.visited, st.branch⟩
      = (valid_actions g cur).foldl (expandStep cm cur ccost) ⟨rest, st.visited, st.branch⟩ := rfl
  rw [hexp]
  have := hmain.2.1.mu_le
  omega

/-- The loop with enough fuel never runs out, never raises a `KeyError`,
and on success leaves a well-formed branch containing the goal (unless the
goal is the start) with the goal reachable. -/
theorem aLoop_main {g : Grid} {cm : CostModel G F} {start goal : Node} :
    ∀ (fuel : ℕ) (st : SState G F), InvA g cm start st → qMeasure g st < fuel →
      (aLoop g cm start goal fuel st ≠ .outOfFuel)
      ∧ (aLoop g cm start goal fuel st ≠ .keyErr)
      ∧ (∀ st', aLoop g cm start goal fuel st = .success st' →
          BranchWF g cm start st'.branch
          ∧ (goal = start ∨ ∃ v, blookup st'.branch goal = some v)
          ∧ (goal = start ∨ Reach g start goal)) := by
  intro fuel
  induction fuel with
  | zero => intro st _ hmu; omega
  | succ n ih =>
    intro st hA hmu
    cases hpop : popMin cm.cmp st.queue with
    | none =>
      simp only [aLoop, hpop]
      exact ⟨by simp, by simp, by simp⟩
    | some p =>
      obtain ⟨⟨f, cur⟩, rest⟩ := p
      cases hcc : (if cur = start then some cm.zero
          else (blookup st.branch cur).map (fun v => v.1)) with
      | none =>
        exfalso
        have hperm := popMin_perm cm.cmp st.queue (f, cur) rest hpop
        have hcurq : (f, cur) ∈ st.queue := hperm.mem_iff.mpr (by simp)
        rcases hA.qvb _ hcurq with h | h
        · simp only at h
          rw [if_pos h] at hcc
          simp at hcc
        · simp only at h
          by_cases hcs : cur = start
          · rw [if_pos hcs] at hcc
            simp at hcc
          · rw [if_neg hcs] at hcc
            obtain ⟨v, hv⟩ := Option.isSome_iff_exists.mp h
            rw [hv] at hcc
            simp at hcc
      | some ccost =>
        by_cases hgoal : cur = goal
        · simp only [aLoop, hpop, hcc, if_pos hgoal]
          refine ⟨by simp, by simp, ?_⟩
          intro st' hst'
          simp only [LoopRes.success.injEq] at hst'
          subst hst'
          refine ⟨hA.bwf, ?_, ?_⟩
          · by_cases hgs : goal = start
            · exact Or.inl hgs
            · right
              have hperm := popMin_perm cm.cmp st.queue (f, cur) rest hpop
              have hcurq : (f, cur) ∈ st.queue := hperm.mem_iff.mpr (by simp)
              rcases hA.qvb _ hcurq with h | h
              · exact absurd (hgoal ▸ h) hgs
              · obtain ⟨v, hv⟩ := Option.isSome_iff_exists.mp h
                exact ⟨v, by rw [← hgoal]; exact hv⟩
          · by_cases hgs : goal = start
            · exact Or.inl hgs
            · right
              have hperm := popMin_perm cm.cmp st.queue (f, cur) rest hpop
              have hcurq : (f, cur) ∈ st.queue := hperm.mem_iff.mpr (by simp)
              rcases hA.qvb _ hcurq with h | h
              · exact absurd (hgoal ▸ h) hgs
              · obtain ⟨v, hv⟩ := Option.isSome_iff_exists.mp h
                have := hA.vis_reach cur (hA.bk_vis cur v hv)
                rwa [hgoal] at this
        · have hstep := loop_step hA hpop hcc
          simp only [aLoop, hpop, hcc, if_neg hgoal]
          exact ih _ hstep.1 (by omega)

/-- If the loop exhausts its frontier, the final visited set absorbs every
queued node's successors, is closed under valid moves, and misses the
goal. -/
theorem aLoop_exhausted {g : Grid} {cm : CostModel G F} {start goal : Node} :
    ∀ (fuel : ℕ) (st : SState G F), InvA g cm start st → InvB g goal st →
      ∀ stf, aLoop g cm start goal fuel st = .exhausted stf →
        (∀ e ∈ st.queue, ∀ a ∈ valid_actions g e.2, moveTo e.2 a ∈ stf.visited)
        ∧ (∀ n ∈ st.visited, n ∈ stf.visited)
        ∧ (∀ n ∈ stf.visited, ∀ a ∈ valid_actions g n, moveTo n a ∈ stf.visited)
        ∧ goal ∉ stf.visited := by
  intro fuel
  induction fuel with
  | zero =>
    intro st _ _ stf h
    simp [aLoop] at h
  | succ n ih =>
    intro st hA hB stf h
    cases hpop : popMin cm.cmp st.queue with
    | none =>
      have hq : st.queue = [] := (popMin_none_iff cm.cmp st.queue).mp hpop
      simp only [aLoop, hpop, LoopRes.exhausted.injEq] at h
      subst h
      refine ⟨by simp [hq], fun n hn => hn, ?_, ?_⟩
      · intro m hm a ha
        rcases hB.hclosed m hm with hq' | hcl
        · rw [hq] at hq'
          simp at hq'
        · exact hcl a ha
      · intro hgv
        have := hB.hgoal hgv
        rw [hq] at this
        simp at this
    | some p =>
      obtain ⟨⟨f, cur⟩, rest⟩ := p
      cases hcc : (if cur = start then some cm.zero
          else (blookup st.branch cur).map (fun v => v.1)) with
      | none => simp [aLoop, hpop, hcc] at h
      | some ccost =>
        by_cases hgoal : cur = goal
        · simp [aLoop, hpop, hcc, if_pos hgoal] at h
        · simp only [aLoop, hpop, hcc, if_neg hgoal] at h
          have hstep := loop_step hA hpop hcc
          set st2 := expand g cm cur ccost ⟨rest, st.visited, st.branch⟩ with hst2
          have hperm := popMin_perm cm.cmp st.queue (f, cur) rest hpop
          have hB2 : InvB g goal st2 := by
            constructor
            · intro m hm
              rcases hstep.2.2.1.vis_new m hm with hm1 | hm1
              · -- m was already visited before the expansion
                rcases hB.hclosed m hm1 with hq' | hcl
                · -- m was queued: either it is the popped node or still queued
                  simp only [List.mem_map] at hq'
                  obtain ⟨e, he, hee⟩ := hq'
                  rcases List.mem_cons.mp (hperm.mem_iff.mp he) with he' | he'
                  · -- the popped entry: closure via the expansion
                    right
                    intro a ha
                    have hmc : m = cur := by rw [← hee, he']
                    subst hmc
                    exact hstep.2.2.2 a ha
                  · left
                    obtain ⟨d, hd⟩ := hstep.2.2.1.queue_ext
                    simp only [List.mem_map]
                    exact ⟨e, by rw [hd]; exact List.mem_append_left _ he', hee⟩
                · right
                  intro a ha
                  exact hstep.2.2.1.vis_sub _ (hcl a ha)
              · exact Or.inl hm1
            · intro hgv
              rcases hstep.2.2.1.vis_new goal hgv with hm1 | hm1
              · have := hB.hgoal hm1
                simp only [List.mem_map] at this
                obtain ⟨e, he, hee⟩ := this
                rcases List.mem_cons.mp (hperm.mem_iff.mp he) with he' | he'
                · exfalso
                  apply hgoal
                  have : e.2 = cur := by rw [he']
                  rw [← this, hee]
                · obtain ⟨d, hd⟩ := hstep.2.2.1.queue_ext
                  simp only [List.mem_map]
                  exact ⟨e, by rw [hd]; exact List.mem_append_left _ he', hee⟩
              · exact hm1
          have hrec := ih st2 hstep.1 hB2 stf h
          refine ⟨?_, ?_, hrec.2.2.1, hrec.2.2.2⟩
          · intro e he a ha
            rcases List.mem_cons.mp (hperm.mem_iff.mp he) with he' | he'
            · have : e.2 = cur := by rw [he']
              rw [this]
              exact hrec.2.1 _ (hstep.2.2.2 a (this ▸ ha))
            · obtain ⟨d, hd⟩ := hstep.2.2.1.queue_ext
              exact hrec.1 e (by rw [hd]; exact List.mem_append_left _ he') a ha
          · intro m hm
            exact hrec.2.1 m (hstep.2.2.1.vis_sub m hm)

theorem lookup_of_split {g : Grid} {cm : CostModel G F} {start : Node}
    {br pre rest : List (Node × G × Node × Action)} {k : Node} {v : G × Node × Action}
    (hwf : BranchWF g cm start br) (hsplit : br = pre ++ (k, v) :: rest) :
    blookup br k = some v := by
  subst hsplit
  have hs : (blookup ((k, v) :: rest) k).isSome := by simp [blookup]
  rw [bwf_lookup_append pre _ hwf k hs]
  simp [blookup]

/-- Walking the branch back from any recorded node succeeds within
`branch.length` steps and reconstructs a costed valid path from `start`. -/
theorem retrace_spec {g : Grid} {cm : CostModel G F} {start : Node}
    {br : List (Node × G × Node × Action)} (hwf : BranchWF g cm start br) :
    ∀ (fuel : ℕ) (n : Node) (c : G) (pred : Node) (a : Action)
      (pre rest : List (Node × G × Node × Action)),
      br = pre ++ (n, (c, pred, a)) :: rest → rest.length < fuel →
      ∀ acc, ∃ mid, retrace br start fuel n acc = .ok (acc ++ mid ++ [start])
        ∧ CPath g cm start ((start :: mid.reverse) ++ [n]) n c := by
  intro fuel
  induction fuel with
  | zero => intro n c pred a pre rest _ hR; omega
  | succ f ih =>
    intro n c pred a pre rest hsplit hR acc
    have hlk : blookup br n = some (c, pred, a) := lookup_of_split hwf hsplit
    have hcl : BranchWF g cm start ((n, (c, pred, a)) :: rest) := by
      apply bwf_suffix pre
      rw [← hsplit]
      exact hwf
    obtain ⟨hfresh, hmove, hvalid, hcost, hrest⟩ := hcl
    by_cases hps : pred = start
    · subst hps
      rw [if_pos rfl] at hcost
      refine ⟨[], ?_, ?_⟩
      · simp [retrace, hlk]
      · rw [hcost]
        exact CPath.single hmove hvalid
    · rw [if_neg hps] at hcost
      obtain ⟨c', p', a', hlkp, hc⟩ := hcost
      obtain ⟨pre2, rest2, hsplit2, _⟩ := blookup_split hlkp
      have hsplitbr : br = (pre ++ (n, (c, pred, a)) :: pre2) ++ (pred, (c', p', a')) :: rest2 := by
        rw [hsplit, hsplit2]
        simp
      have hR2 : rest2.length < f := by
        have : rest.length = pre2.length + 1 + rest2.length := by
          rw [hsplit2]
          simp
          omega
        omega
      obtain ⟨mid', hok', hcp'⟩ := ih pred c' p' a' _ _ hsplitbr hR2 (acc ++ [pred])
      refine ⟨pred :: mid', ?_, ?_⟩
      · have hred : retrace br start (f + 1) n acc = retrace br start f pred (acc ++ [pred]) := by
          simp [retrace, hlk, hps]
        rw [hred, hok']
        simp
      · have hstep := CPath.step hcp' hmove hvalid
        rw [← hc] at hstep
        have hshape : ((start :: mid'.reverse) ++ [pred]) ++ [n]
            = (start :: (pred :: mid').reverse) ++ [n] := by
          simp
        rwa [hshape] at hstep

end AStarExpand

/-! ### Top-level behaviour of `a_star` -/

section AStarTop

variable {G F : Type}

/-- The core invariant holds of the initial state: queue `[(0, start)]`,
visited extensionally empty (the `set(start)` construction), branch
empty. -/
theorem initInvA (g : Grid) (cm : CostModel G F) (start : Node) :
    InvA g cm start ⟨[(cm.f0, start)], [], []⟩ := by
  refine ⟨?_, ?_, ?_, ?_, ?_, trivial⟩
  · intro e he
    left
    have h1 : e = (cm.f0, start) := by simpa using he
    rw [h1]
  · intro k v h
    simp [blookup] at h
  · intro n hn
    simp at hn
  · intro n hn
    simp at hn
  · exact List.nodup_nil

/-- The closure invariant holds of the initial state. -/
theorem initInvB (g : Grid) (goal start : Node) (f0 : F) :
    InvB g goal (⟨[(f0, start)], [], []⟩ : SState G F) := by
  refine ⟨?_, ?_⟩
  · intro n hn
    simp at hn
  · intro hg
    simp at hg

/-- The initial measure is below the fuel `aStarG` supplies. -/
theorem init_qMeasure_lt (g : Grid) (cm : CostModel G F) (start : Node) :
    qMeasure g (⟨[(cm.f0, start)], [], []⟩ : SState G F) < stdFuel g := by
  unfold qMeasure stdFuel
  simp only [List.length_singleton, List.toFinset_nil, Finset.sdiff_empty]
  have h := validCells_card_le g
  omega

/-- On success with the goal recorded in the branch, `aStarG` returns the
retraced path, which is a valid costed path from `start` to `goal`. -/
theorem aStarG_success_case (g : Grid) (cm : CostModel G F) (start goal : Node)
    (st : SState G F)
    (hres : aLoop g cm start goal (stdFuel g) ⟨[(cm.f0, start)], [], []⟩ = .success st)
    (c0 : G) (pred : Node) (a0 : Action)
    (hlk : blookup st.branch goal = some (c0, pred, a0))
    (hbwf : BranchWF g cm start st.branch) :
    ∃ mid : List Node, aStarG g cm start goal = .ok ((start :: mid.reverse) ++ [goal]) c0
      ∧ CPath g cm start ((start :: mid.reverse) ++ [goal]) goal c0 := by
  obtain ⟨pre, rest, hsplit, _⟩ := blookup_split hlk
  have hrlen : rest.length < st.branch.length + 1 := by
    rw [hsplit]
    simp only [List.length_append, List.length_cons]
    omega
  obtain ⟨mid, hok, hcp⟩ :=
    retrace_spec hbwf (st.branch.length + 1) goal c0 pred a0 pre rest hsplit hrlen [goal]
  refine ⟨mid, ?_, hcp⟩
  simp only [aStarG, hres, hlk, hok]
  simp

/-- `a_star` cannot run out of fuel: the loop terminates within `stdFuel`
for every grid, cost model and start/goal pair. -/
theorem aStarG_no_outOfFuel (g : Grid) (cm : CostModel G F) (start goal : Node) :
    aStarG g cm start goal ≠ ARes.outOfFuel := by
  have hm := @aLoop_main G F g cm start goal (stdFuel g)
      ⟨[(cm.f0, start)], [], []⟩ (initInvA g cm start) (init_qMeasure_lt g cm start)
  cases hres : aLoop g cm start goal (stdFuel g) ⟨[(cm.f0, start)], [], []⟩ with
  | outOfFuel => exact absurd hres hm.1
  | keyErr => simp [aStarG, hres]
  | exhausted stf => simp [aStarG, hres]
  | success st =>
    obtain ⟨hbwf, hgl, _⟩ := hm.2.2 st hres
    cases hlk : blookup st.branch goal with
    | none => simp [aStarG, hres, hlk]
    | some v =>
      obtain ⟨c0, pred, a0⟩ := v
      obtain ⟨mid, hstep, _⟩ := aStarG_success_case g cm start goal st hres c0 pred a0 hlk hbwf
      rw [hstep]
      simp

/-- Soundness: a returned non-empty path is a valid 8-connected path from
`start` whose last node is `goal` and whose recorded cost is the sum of its
per-step costs. -/
theorem aStarG_sound (g : Grid) (cm : CostModel G F) (start goal : Node)
    (p : List Node) (c : G) (h : aStarG g cm start goal = .ok p c) (hne : p ≠ []) :
    CPath g cm start p goal c := by
  have hm := @aLoop_main G F g cm start goal (stdFuel g)
      ⟨[(cm.f0, start)], [], []⟩ (initInvA g cm start) (init_qMeasure_lt g cm start)
  cases hres : aLoop g cm start goal (stdFuel g) ⟨[(cm.f0, start)], [], []⟩ with
  | outOfFuel => exact absurd hres hm.1
  | keyErr => simp [aStarG, hres] at h
  | exhausted stf =>
    simp only [aStarG, hres, ARes.ok.injEq] at h
    exact absurd h.1.symm hne
  | success st =>
    obtain ⟨hbwf, hgl, _⟩ := hm.2.2 st hres
    cases hlk : blookup st.branch goal with
    | none => simp [aStarG, hres, hlk] at h
    | some v =>
      obtain ⟨c0, pred, a0⟩ := v
      obtain ⟨mid, hstep, hcp⟩ := aStarG_success_case g cm start goal st hres c0 pred a0 hlk hbwf
      rw [hstep] at h
      simp only [ARes.ok.injEq] at h
      rw [← h.1, ← h.2]
      exact hcp

/-- If the frontier is exhausted from the initial state, the goal is not
reachable (unless it is the start). -/
theorem exhausted_no_reach (g : Grid) (cm : CostModel G F) (start goal : Node)
    (hne : goal ≠ start) (hreach : Reach g start goal) :
    ∀ stf, aLoop g cm start goal (stdFuel g) ⟨[(cm.f0, start)], [], []⟩ ≠ .exhausted stf := by
  intro stf hex
  obtain ⟨habs, _, hclosed, hgoal⟩ :=
    aLoop_exhausted (stdFuel g) _ (initInvA g cm start) (initInvB g goal start cm.f0) stf hex
  have hstart : ∀ a ∈ valid_actions g start, moveTo start a ∈ stf.visited := by
    intro a ha
    exact habs (cm.f0, start) (by simp) a ha
  have hall : ∀ n, Reach g start n → n = start ∨ n ∈ stf.visited := by
    intro n hn
    induction hn with
    | refl => exact Or.inl rfl
    | step a hr hmv hval ih =>
      rename_i n0 n1
      right
      have hact : a ∈ valid_actions g n0 := by
        apply List.mem_filter.mpr
        refine ⟨mem_actionList a, ?_⟩
        rw [← hmv]
        exact hval
      rcases ih with h0 | hvis
      · rw [hmv, h0]
        exact hstart a (h0 ▸ hact)
      · rw [hmv]
        exact hclosed n0 hvis a hact
  rcases hall goal hreach with h | h
  · exact hne h
  · exact hgoal h

/-- Completeness with endpoints: for a goal reachable from a distinct
start, the search returns a non-empty path running from `start` to
`goal`. -/
theorem aStarG_complete (g : Grid) (cm : CostModel G F) (start goal : Node)
    (hne : start ≠ goal) (hreach : Reach g start goal) :
    ∃ p c, aStarG g cm start goal = .ok p c ∧ p ≠ []
      ∧ p.head? = some start ∧ p.getLast? = some goal := by
  have hm := @aLoop_main G F g cm start goal (stdFuel g)
      ⟨[(cm.f0, start)], [], []⟩ (initInvA g cm start) (init_qMeasure_lt g cm start)
  cases hres : aLoop g cm start goal (stdFuel g) ⟨[(cm.f0, start)], [], []⟩ with
  | outOfFuel => exact absurd hres hm.1
  | keyErr => exact absurd hres hm.2.1
  | exhausted stf =>
    exact absurd hres (exhausted_no_reach g cm start goal (Ne.symm hne) hreach stf)
  | success st =>
    obtain ⟨hbwf, hgl, _⟩ := hm.2.2 st hres
    rcases hgl with h | ⟨v, hlk⟩
    · exact absurd h.symm hne
    obtain ⟨c0, pred, a0⟩ := v
    obtain ⟨mid, hstep, hcp⟩ := aStarG_success_case g cm start goal st hres c0 pred a0 hlk hbwf
    exact ⟨(start :: mid.reverse) ++ [goal], c0, hstep, by simp, by simp,
      List.getLast?_concat _⟩

/-- Unreachable goal: the search exhausts the frontier and returns the
empty path with the zero cost. -/
theorem aStarG_unreachable (g : Grid) (cm : CostModel G F) (start goal : Node)
    (h : ¬ Reach g start goal) :
    aStarG g cm start goal = .ok [] cm.zero := by
  have hm := @aLoop_main G F g cm start goal (stdFuel g)
      ⟨[(cm.f0, start)], [], []⟩ (initInvA g cm start) (init_qMeasure_lt g cm start)
  cases hres : aLoop g cm start goal (stdFuel g) ⟨[(cm.f0, start)], [], []⟩ with
  | outOfFuel => exact absurd hres hm.1
  | keyErr => exact absurd hres hm.2.1
  | exhausted stf => simp [aStarG, hres]
  | success st =>
    obtain ⟨_, _, hreach⟩ := hm.2.2 st hres
    rcases hreach with h0 | hr
    · rw [h0] at h
      exact absurd Reach.refl h
    · exact absurd hr h

end AStarTop

/-! ### Concrete instances

Small inputs used to witness and to refute the claimed properties. -/

/-- A 4 by 3 grid: the blocked cells separate a short diagonal corridor
from a longer straight one. -/
def grid43 : Grid :=
  ⟨4, 3, fun i j => decide ((i, j) ∈ [((0 : ℤ), (0 : ℤ)), (0, 1), (1, 0), (2, 0), (2, 1)])⟩

/-- The path `a_star grid43 (0,2) (3,0)` returns (cost `1 + 3·√2`). -/
def path43 : List Node := [(0, 2), (1, 1), (2, 2), (3, 1), (3, 0)]

/-- A cheaper valid path for the same endpoints (cost `3 + √2`). -/
def alt43 : List Node := [(0, 2), (1, 2), (2, 2), (3, 1), (3, 0)]

/-- The one-cell free grid. -/
def grid11 : Grid := ⟨1, 1, fun _ _ => false⟩

/-- A 1 by 3 corridor whose middle cell is blocked: `(0, 2)` is unreachable
from `(0, 0)`. -/
def gridU : Grid := ⟨1, 3, fun i j => decide (i = 0 ∧ j = 1)⟩

/-- A 3 by 3 grid whose top corners and bottom row are blocked. -/
def gridP : Grid :=
  ⟨3, 3, fun i j => decide ((i, j) ∈ [((0 : ℤ), (1 : ℤ)), (0, 2), (2, 0), (2, 1), (2, 2)])⟩

/-- An 8-connected path over the free cells of `gridP` whose pruning is not
a fixed point of `prune_path`. -/
def pathP : List Node := [(1, 2), (1, 1), (0, 0), (1, 0)]

/-- An obstacle spanning north and east extents `0.5 .. 1.5`: its bounding
box has span `1` but `create_grid` builds a 2 by 2 grid. -/
def oC6 : Obstacle := ⟨1, 1, 0, 0.5, 0.5, 1⟩

/-- The spec's north dimension: the ceiling of the bounding-box span
(`ceil(max(north + d_north) - min(north - d_north))`), stated from the
spec's words for the refinement check against the code's
`northMaxOf - northMinOf`. -/
def specNorthSize (o0 : Obstacle) (data : List Obstacle) : ℤ :=
  ⌈qfoldMax (data.map fun o => o.north + o.dNorth) (o0.north + o0.dNorth)
    - qfoldMin (data.map fun o => o.north - o.dNorth) (o0.north - o0.dNorth)⌉

/-- East counterpart of `specNorthSize`. -/
def specEastSize (o0 : Obstacle) (data : List Obstacle) : ℤ :=
  ⌈qfoldMax (data.map fun o => o.east + o.dEast) (o0.east + o0.dEast)
    - qfoldMin (data.map fun o => o.east - o.dEast) (o0.east - o0.dEast)⌉

/-- An obstacle with integral bounds, for instantiating `create_grid_spec`. -/
def oW : Obstacle := ⟨2, 2, 0, 1, 1, 10⟩

/-- The grid `create_grid [oW] 10 2` builds. -/
def gW : Grid :=
  ⟨2, 2, fun i j => [oW].any fun o =>
    obstacleMarks 10 2 (northMinOf oW [oW]) (eastMinOf oW [oW])
      (northMaxOf oW [oW] - northMinOf oW [oW])
      (eastMaxOf oW [oW] - eastMinOf oW [oW]) o i j⟩

/-- An obstacle with a negative north half-extent: its `north_size` is
negative, so `create_grid` raises (`np.zeros` on a negative dimension). -/
def oNeg : Obstacle := ⟨0, 0, 0, -5, 0, 0⟩

/-- A planning environment with one short obstacle and a trivial
global-to-local converter. -/
def env0 : PlanEnv := ⟨37, -122, [⟨0, 0, 0, 1, 1, 1⟩], fun p _ => ⟨p.lon, p.lat, 0⟩⟩

/-- An armed drone in DISARMING with the mission active. -/
def sDis : DroneState :=
  ⟨.DISARMING, true, true, true, ⟨0, 0, 0, 0⟩, [], ⟨0, 0, 0⟩, ⟨0, 0, 0⟩, ⟨0, 0, 0⟩, ⟨0, 0, 0⟩, []⟩

/-- An armed drone in ARMING, in mission, about to plan. -/
def sArm : DroneState :=
  ⟨.ARMING, true, true, true, ⟨0, 0, 0, 0⟩, [], ⟨0, 0, 0⟩, ⟨0, 0, 0⟩, ⟨2, 3, 0⟩, ⟨0, 0, 0⟩, []⟩

/-- The state `plan_path env0 sArm` returns: still in PLANNING, waypoint
queue empty, no takeoff command issued. -/
def sPlanned : DroneState :=
  ⟨.PLANNING, true, true, true, ⟨0, 0, 10, 0⟩, [], ⟨0, 0, 0⟩, ⟨0, 0, 0⟩, ⟨2, 3, 0⟩, ⟨0, 0, 0⟩,
    [Cmd.setHome (-122) 37 0, Cmd.sendWaypoints []]⟩

/-- A drone in TAKEOFF past the altitude trigger with an empty waypoint
queue. -/
def sTak : DroneState :=
  ⟨.TAKEOFF, true, true, true, ⟨0, 0, 10, 0⟩, [], ⟨0, 0, -10⟩, ⟨0, 0, 0⟩, ⟨0, 0, 0⟩, ⟨0, 0, 0⟩, []⟩

/-! ### The claims about `a_star` -/

/-- C1 (corrected): `a_star` with the Euclidean heuristic is *sound* — a
returned non-empty path is a valid 8-connected path from start to goal
whose cost is the exact sum of its per-step costs (`1` cardinal, `√2`
diagonal) — but it is *not* optimal: because nodes are marked visited when
generated rather than when expanded, the returned cost can exceed the
minimum (see `a_star_suboptimal`). -/
theorem a_star_sound_not_optimal (g : Grid) (start goal : Node) (p : List Node) (c : GCost)
    (h : a_star g start goal = .ok p c) (hne : p ≠ []) :
    CPath g (euclidCM goal) start p goal c :=
  aStarG_sound g (euclidCM goal) start goal p c h hne

/-- On `grid43`, `a_star` returns the path `path43` of cost `1 + 3·√2`
while the valid path `alt43` between the same endpoints costs `3 + √2`,
which is strictly smaller: the returned cost is not minimal. -/
theorem a_star_suboptimal :
    a_star grid43 (0, 2) (3, 0) = .ok path43 ((1, 3) : GCost)
    ∧ CPath grid43 (euclidCM (3, 0)) (0, 2) alt43 (3, 0) ((3, 1) : GCost)
    ∧ realG (3, 1) < realG (1, 3) := by
  refine ⟨by decide, ?_, ?_⟩
  · have h1 := @CPath.single grid43 GCost FCost (euclidCM (3, 0)) (0, 2) Action.south (1, 2)
      (by decide) (by decide)
    have h2 := CPath.step h1
      (show ((2 : ℤ), (2 : ℤ)) = moveTo (1, 2) Action.south by decide) (by decide)
    have h3 := CPath.step h2
      (show ((3 : ℤ), (1 : ℤ)) = moveTo (2, 2) Action.southwest by decide) (by decide)
    have h4 := CPath.step h3
      (show ((3 : ℤ), (0 : ℤ)) = moveTo (3, 1) Action.west by decide) (by decide)
    simpa [alt43, euclidCM, gStep, Action.isDiag] using h4
  · unfold realG
    have hs := two_sqrt_sq
    have hp := two_sqrt_pos
    push_cast
    nlinarith [hs, hp]

/-- `a_star_sound_not_optimal` at the `grid43` run. -/
theorem a_star_sound_not_optimal_witness :
    a_star grid43 (0, 2) (3, 0) = .ok path43 ((1, 3) : GCost)
    ∧ path43 ≠ []
    ∧ CPath grid43 (euclidCM (3, 0)) (0, 2) path43 (3, 0) ((1, 3) : GCost) :=
  ⟨by decide, by decide,
    a_star_sound_not_optimal grid43 (0, 2) (3, 0) path43 (1, 3) (by decide) (by decide)⟩

/-- C4 (corrected): for a goal reachable from a *distinct* valid start,
`a_star` returns a non-empty path whose first node is `start` and whose
last node is `goal`.  The claim's `start = goal` case is excluded: there
the retrace raises a `KeyError` (see `a_star_start_eq_goal_raises`). -/
theorem a_star_reachable_endpoints (g : Grid) (start goal : Node)
    (hne : start ≠ goal) (hreach : Reach g start goal) :
    ∃ p c, a_star g start goal = .ok p c ∧ p ≠ []
      ∧ p.head? = some start ∧ p.getLast? = some goal :=
  aStarG_complete g (euclidCM goal) start goal hne hreach

/-- With `start = goal` (trivially reachable, valid), `a_star` raises
(`KeyError` on `branch[goal]`) instead of returning the one-node path. -/
theorem a_star_start_eq_goal_raises :
    is_valid_node grid11 (0, 0) = true
    ∧ Reach grid11 (0, 0) (0, 0)
    ∧ a_star grid11 (0, 0) (0, 0) = ARes.raised :=
  ⟨by decide, Reach.refl, by decide⟩

/-- `a_star_reachable_endpoints` on `grid43`. -/
theorem a_star_reachable_endpoints_witness :
    (((0 : ℤ), (2 : ℤ)) : Node) ≠ ((3 : ℤ), (0 : ℤ))
    ∧ Reach grid43 (0, 2) (3, 0)
    ∧ ∃ p c, a_star grid43 (0, 2) (3, 0) = .ok p c ∧ p ≠ []
        ∧ p.head? = some (0, 2) ∧ p.getLast? = some (3, 0) := by
  have r1 : Reach grid43 (0, 2) (1, 2) :=
    Reach.step Action.south Reach.refl (by decide) (by decide)
  have r2 : Reach grid43 (0, 2) (2, 2) :=
    Reach.step Action.south r1 (by decide) (by decide)
  have r3 : Reach grid43 (0, 2) (3, 1) :=
    Reach.step Action.southwest r2 (by decide) (by decide)
  have r4 : Reach grid43 (0, 2) (3, 0) :=
    Reach.step Action.west r3 (by decide) (by decide)
  exact ⟨by decide, r4, a_star_reachable_endpoints grid43 (0, 2) (3, 0) (by decide) r4⟩

/-- C5 (confirmed): when no sequence of valid 8-connected moves leads from
start to goal, `a_star` terminates normally with the empty path and cost
`0` (the exhausted-frontier branch). -/
theorem a_star_unreachable_empty (g : Grid) (start goal : Node)
    (h : ¬ Reach g start goal) :
    a_star g start goal = ARes.ok [] ((0, 0) : GCost) :=
  aStarG_unreachable g (euclidCM goal) start goal h

/-- No move out of `(0, 0)` in `gridU` is valid, so only `(0, 0)` is
reachable. -/
theorem gridU_reach (n : Node) (h : Reach gridU (0, 0) n) : n = (0, 0) := by
  induction h with
  | refl => rfl
  | step a hr hmv hval ih =>
    rw [ih] at hmv
    subst hmv
    cases a <;> exact absurd hval (by decide)

/-- `a_star_unreachable_empty` on the blocked corridor `gridU`. -/
theorem a_star_unreachable_empty_witness :
    ¬ Reach gridU (0, 0) (0, 2)
    ∧ a_star gridU (0, 0) (0, 2) = ARes.ok [] ((0, 0) : GCost) := by
  have hnr : ¬ Reach gridU (0, 0) (0, 2) := fun h => absurd (gridU_reach _ h) (by decide)
  exact ⟨hnr, a_star_unreachable_empty gridU (0, 0) (0, 2) hnr⟩

/-- C9 (confirmed): the search loop terminates on every finite grid, for
every cost model (hence every heuristic) and every start/goal pair — the
fuel bound `stdFuel` is never exhausted, generically and for the Euclidean
instantiation `a_star` invokes. -/
theorem a_star_terminates {G F : Type} (g : Grid) (cm : CostModel G F)
    (start goal : Node) :
    aStarG g cm start goal ≠ ARes.outOfFuel ∧ a_star g start goal ≠ ARes.outOfFuel :=
  ⟨aStarG_no_outOfFuel g cm start goal, aStarG_no_outOfFuel g (euclidCM goal) start goal⟩

/-! ### The claims about `prune_path` and `create_grid` -/

/-- C8 (corrected): `prune_path` is not idempotent
(see `prune_path_not_idempotent`); what does hold is that a successful
pruning never lengthens the path. -/
theorem prune_path_shortens (g : Grid) (l r : List Node)
    (h : prune_path g l = some r) : r.length ≤ l.length :=
  prune_path_length g l r h

/-- Pruning `pathP` on `gridP` once yields a path that a second pruning
shortens further: `prune_path` is not idempotent. -/
theorem prune_path_not_idempotent :
    prune_path gridP pathP = some [(1, 2), (1, 1), (1, 0)]
    ∧ prune_path gridP [(1, 2), (1, 1), (1, 0)] = some [(1, 2), (1, 0)]
    ∧ ([(1, 2), (1, 1), (1, 0)] : List Node) ≠ [(1, 2), (1, 0)] :=
  ⟨by decide, by decide, by decide⟩

/-- `prune_path_shortens` at the `gridP` pruning. -/
theorem prune_path_shortens_witness :
    prune_path gridP pathP = some [(1, 2), (1, 1), (1, 0)]
    ∧ ([(1, 2), (1, 1), (1, 0)] : List Node).length ≤ pathP.length :=
  ⟨by decide, prune_path_shortens gridP pathP [(1, 2), (1, 1), (1, 0)] (by decide)⟩

unseal Rat.add Rat.mul Rat.sub Rat.ofScientific in
/-- On the obstacle `oC6` both bounding-box spans have ceiling `1`, yet the
built grid is 2 by 2: the dimensions are `ceil(max) - floor(min)`, not the
ceiling of the span. -/
theorem create_grid_dims_not_span :
    (create_grid [oC6] 5 0).map
      (fun r => ((r.1.nrows : ℤ), (r.1.ncols : ℤ))) = some (2, 2)
    ∧ specNorthSize oC6 [oC6] = 1 ∧ specEastSize oC6 [oC6] = 1
    ∧ ((2 : ℤ) ≠ 1) :=
  ⟨by decide, by decide, by decide, by decide⟩

unseal Rat.add Rat.mul Rat.sub Rat.ofScientific in
/-- `create_grid [oW] 10 2` evaluates to the concrete grid `gW` with
offsets `(1, 1)`. -/
theorem cgW_eq : create_grid [oW] 10 2 = some (gW, 1, 1) := rfl

/-- `create_grid_spec` at the obstacle `oW` (dimension part). -/
theorem create_grid_spec_witness :
    (0 : ℚ) ≤ 2
    ∧ (∀ o ∈ [oW], (0 : ℚ) ≤ o.dNorth ∧ (0 : ℚ) ≤ o.dEast)
    ∧ create_grid [oW] 10 2 = some (gW, 1, 1)
    ∧ (∃ o0 rest, ([oW] : List Obstacle) = o0 :: rest
        ∧ (gW.nrows : ℤ) = northMaxOf o0 [oW] - northMinOf o0 [oW]
        ∧ (gW.ncols : ℤ) = eastMaxOf o0 [oW] - eastMinOf o0 [oW]
        ∧ (1 : ℤ) = northMinOf o0 [oW] ∧ (1 : ℤ) = eastMinOf o0 [oW]) :=
  ⟨by norm_num, by decide, cgW_eq,
    (create_grid_spec [oW] 10 2 gW 1 1 (by norm_num) (by decide) cgW_eq).1⟩

unseal Rat.add Rat.mul Rat.sub Rat.ofScientific in
/-- A non-empty obstacle list on which `create_grid` still fails: the
negative half-extent of `oNeg` makes the computed dimension negative and
`np.zeros` raises. -/
theorem create_grid_negative_extent_raises :
    create_grid [oNeg] 10 2 = none ∧ ([oNeg] : List Obstacle) ≠ [] :=
  ⟨Option.isNone_iff_eq_none.mp (by decide), by decide⟩

/-- `create_grid_none_iff` at the empty obstacle list. -/
theorem create_grid_none_iff_witness :
    (∀ o ∈ ([] : List Obstacle), (0 : ℚ) ≤ o.dNorth ∧ (0 : ℚ) ≤ o.dEast)
    ∧ (create_grid [] 10 2 = none ↔ ([] : List Obstacle) = []) :=
  ⟨by simp, create_grid_none_iff [] 10 2 (by simp)⟩

/-! ### The claims about the flight state machine -/

/-- The guard `~self.armed & ~self.guided` is truthy for every combination:
`~` on a Python bool complements its int value, giving `-1` or `-2`, and
the bitwise conjunction of two negative numbers is negative, never `0`. -/
theorem disarmCheck_always (armed guided : Bool) : disarmCheck armed guided = true := by
  cases armed <;> cases guided <;> decide

/-- C2 (code bug): in DISARMING with the mission active, a state telemetry
event *always* transitions to MANUAL and deactivates the mission — even
while the vehicle is still armed — because the guard
`~self.armed & ~self.guided` is bitwise, not boolean, and is truthy for
every combination of flags. -/
theorem state_callback_disarming_bug (env : PlanEnv) (s : DroneState)
    (hm : s.in_mission = true) (hst : s.flight_state = States.DISARMING)
    (ha : s.armed = true) :
    state_callback env s = some (manual_transition s)
    ∧ (manual_transition s).flight_state = States.MANUAL
    ∧ (manual_transition s).in_mission = false := by
  refine ⟨?_, rfl, rfl⟩
  simp [state_callback, hm, hst, disarmCheck_always]

/-- `state_callback_disarming_bug` at a still-armed, still-guided state. -/
theorem state_callback_disarming_bug_witness :
    sDis.in_mission = true ∧ sDis.flight_state = States.DISARMING
    ∧ sDis.armed = true ∧ sDis.guided = true
    ∧ state_callback env0 sDis = some (manual_transition sDis)
    ∧ (manual_transition sDis).flight_state = States.MANUAL
    ∧ (manual_transition sDis).in_mission = false :=
  ⟨rfl, rfl, rfl, rfl, state_callback_disarming_bug env0 sDis rfl rfl rfl⟩

/-- C3 (corrected): the PLANNING → TAKEOFF transition is *not* synchronous
with `plan_path` returning (see `plan_path_returns_in_planning`); it is
gated by the next state telemetry event, whose handler issues the takeoff
command when the mission is active and the state is PLANNING. -/
theorem planning_to_takeoff_next_event (env : PlanEnv) (s : DroneState)
    (hm : s.in_mission = true) (hst : s.flight_state = States.PLANNING) :
    state_callback env s = some (takeoff_transition s)
    ∧ (takeoff_transition s).flight_state = States.TAKEOFF
    ∧ (takeoff_transition s).cmds = s.cmds ++ [Cmd.takeoff s.target_position.a] := by
  refine ⟨?_, rfl, rfl⟩
  simp [state_callback, hm, hst]

unseal Rat.add Rat.mul Rat.sub Rat.ofScientific in
/-- The planning event on `sArm` runs `plan_path`, whose returned state is
still in PLANNING with no takeoff command issued: the TAKEOFF transition
has not fired when planning completes. -/
theorem plan_path_returns_in_planning :
    state_callback env0 sArm = plan_path env0 sArm
    ∧ plan_path env0 sArm = some sPlanned
    ∧ sPlanned.flight_state = States.PLANNING
    ∧ States.PLANNING ≠ States.TAKEOFF
    ∧ (∀ q : ℚ, Cmd.takeoff q ∉ sPlanned.cmds) := by
  refine ⟨by decide, by decide, rfl, by decide, ?_⟩
  intro q hq
  simp [sPlanned] at hq

/-- `planning_to_takeoff_next_event` at the planned state. -/
theorem planning_to_takeoff_next_event_witness :
    sPlanned.in_mission = true ∧ sPlanned.flight_state = States.PLANNING
    ∧ state_callback env0 sPlanned = some (takeoff_transition sPlanned)
    ∧ (takeoff_transition sPlanned).flight_state = States.TAKEOFF
    ∧ (takeoff_transition sPlanned).cmds
        = sPlanned.cmds ++ [Cmd.takeoff sPlanned.target_position.a] :=
  ⟨rfl, rfl, planning_to_takeoff_next_event env0 sPlanned rfl rfl⟩

/-- C10 (confirmed): `waypoint_transition` pops the waypoint queue
unconditionally, so when the takeoff-altitude trigger fires with an empty
queue the position callback raises (`IndexError` from `pop(0)`) instead of
being a no-op. -/
theorem waypoint_empty_raises (s : DroneState)
    (hst : s.flight_state = States.TAKEOFF)
    (hwp : s.waypoints = [])
    (halt : -1 * s.local_position.d > (0.95 : ℚ) * s.target_position.a) :
    local_position_callback s = none := by
  simp only [local_position_callback, hst, if_pos halt, waypoint_transition, hwp]

unseal Rat.add Rat.mul Rat.sub Rat.ofScientific in
/-- `waypoint_empty_raises` at a drone past the altitude trigger with an
empty queue. -/
theorem waypoint_empty_raises_witness :
    sTak.flight_state = States.TAKEOFF ∧ sTak.waypoints = []
    ∧ -1 * sTak.local_position.d > (0.95 : ℚ) * sTak.target_position.a
    ∧ local_position_callback sTak = none :=
  ⟨rfl, rfl, by decide, waypoint_empty_raises sTak rfl rfl (by decide)⟩

end FCND
